import Mathlib

/-!
# Verification of the llm-schema core (schema definition and validation engine)

This file is a shallow embedding, in Lean 4, of the core of the `llm-schema`
TypeScript library: the field-descriptor framework (`src/schema/fields.ts`),
the validation engine (`src/schema/validation.ts`), the schema handle
(`src/schema/builder.ts`), the shared helpers (`src/schema/utils.ts`,
`src/schema/internal.ts`) and the transform pipeline (`src/schema/transform.ts`).

Modelling conventions:

* JavaScript runtime values are modelled by the inductive `JsValue`.
  A finite, non-NaN `number` is modelled as `JsNum`: its exact rational
  value (every IEEE-754 double is an exact rational) together with its
  ECMAScript `toString()` rendering, which the code consumes in
  `determineNumberPrecision`.  `NaN` is a separate constructor.
  A valid `Date` instance is modelled by its integer millisecond timestamp.
* JavaScript strings are Lean `String`s; `.length` is the Lean length
  (exact for BMP text, which is all the embedding exercises).
* Host primitives whose exact behaviour lives outside the library —
  `new Date(string)` parsing, `JSON.parse`, `RegExp.test`, and
  `String(date)` rendering — are threaded through as explicit function
  parameters ("oracles") or stored test functions, so theorems quantify
  over every host behaviour.
* Thrown exceptions are modelled with `Except String`: the only throw
  sites inside the engine are misconfigured default-value producers
  (`date` constructor) and the strict `parse` entry point.
* Object key order follows insertion order, as JavaScript guarantees for
  string keys; records are association lists.  `Set` membership
  (SameValueZero) is structural on primitives and `false` on heap values
  (the engine only puts freshly allocated objects/arrays/dates into the
  uniqueness set).
-/

namespace LlmSchema

/-- A finite, non-NaN JavaScript number: exact rational value plus its
ECMAScript `toString()` rendering. -/
structure JsNum where
  val : ℚ
  str : String
deriving DecidableEq, Repr

/-- JavaScript runtime values as they flow through the validation engine. -/
inductive JsValue where
  | undef
  | null
  | bool (b : Bool)
  | nan
  | num (x : JsNum)
  | str (s : String)
  | date (t : ℤ)
  | arr (elems : List JsValue)
  | obj (fields : List (String × JsValue))
deriving Repr

/-- `value === undefined`. -/
def JsValue.isUndef : JsValue → Bool
  | .undef => true
  | _ => false

/-- `typeof` on a modelled value. -/
def typeOf : JsValue → String
  | .undef => "undefined"
  | .null => "object"
  | .bool _ => "boolean"
  | .nan => "number"
  | .num _ => "number"
  | .str _ => "string"
  | .date _ => "object"
  | .arr _ => "object"
  | .obj _ => "object"

/-- `value === undefined || value === null` as used by the engine. -/
def isNullish : JsValue → Bool
  | .undef => true
  | .null => true
  | _ => false

/-- Property read `record[key]` on an association-list record: first
binding wins (JavaScript objects have unique keys). -/
def jsGet (fields : List (String × JsValue)) (k : String) : JsValue :=
  match fields.find? (fun kv => kv.fst == k) with
  | some kv => kv.snd
  | none => (.undef : JsValue)

/-- The closed set of issue codes (`ParseIssue['code']` in `types.ts`). -/
inductive IssueCode where
  | invalid_type
  | invalid_literal
  | invalid_enum_value
  | invalid_date
  | invalid_format
  | too_small
  | too_big
  | required
deriving DecidableEq, Repr

/-- The `received` payload of an issue: the source passes either the raw
value, a `typeof` string, or a length. -/
inductive Received where
  | val (v : JsValue)
  | tystr (s : String)
  | nat (n : ℕ)
deriving Repr

/-- `ParseIssue` from `types.ts`. -/
structure ParseIssue where
  path : List String
  message : String
  code : IssueCode
  expected : Option String := none
  received : Option Received := none
deriving Repr

/-- The `issue(path, message, code, expected?, received?)` helper from `utils.ts`. -/
def mkIssue (path : List String) (message : String) (code : IssueCode)
    (expected : Option String := none) (received : Option Received := none) : ParseIssue :=
  { path := path, message := message, code := code, expected := expected, received := received }

/-- `appendPath` from `utils.ts`: segments are stringified and appended. -/
def appendPath (path : List String) (segment : String) : List String :=
  path ++ [segment]

/-- `resolveOptional` from `utils.ts`.  `optFlag`/`reqFlag` model the raw
`options.optional` / `options.required` (absent = `none`); `defaultSupplied`
models `'default' in options && options.default !== undefined`. -/
def resolveOptional (optFlag reqFlag : Option Bool) (defaultSupplied : Bool) : Bool :=
  if optFlag = some true then true
  else if reqFlag = some true then false
  else if reqFlag = some false then true
  else defaultSupplied

/-- A `RegExp` as the library consumes it: an opaque host `test` predicate
plus its `toString()` source (used in messages). -/
structure JsRegExp where
  test : String → Bool
  src : String

/-- Options for `text(...)`.  A configured-but-`undefined` default is
behaviourally identical to an absent one everywhere in the source
(`'default' in opts && opts.default !== undefined`), so `dflt = none`
covers both. -/
structure TextOpts where
  optFlag : Option Bool := none
  reqFlag : Option Bool := none
  minLength : Option ℕ := none
  maxLength : Option ℕ := none
  pattern : Option JsRegExp := none
  dflt : Option String := none

/-- Options for `md(...)` (only `maxLength` is enforced by its parse). -/
structure MdOpts where
  optFlag : Option Bool := none
  reqFlag : Option Bool := none
  maxLength : Option ℕ := none
  dflt : Option String := none

/-- Options for `number(...)`; `min`/`max` carry their `toString()` for
message rendering, comparisons use the exact value. -/
structure NumberOpts where
  optFlag : Option Bool := none
  reqFlag : Option Bool := none
  min : Option JsNum := none
  max : Option JsNum := none
  precision : Option ℕ := none
  dflt : Option JsNum := none

/-- Options for `boolean(...)`. -/
structure BoolOpts where
  optFlag : Option Bool := none
  reqFlag : Option Bool := none
  dflt : Option Bool := none

/-- Options for `date(...)`.  The configured default is kept as the raw
JavaScript value (`Date | string | number` in the typings). -/
structure DateOpts where
  optFlag : Option Bool := none
  reqFlag : Option Bool := none
  fromUnix : Bool := false
  dflt : Option JsValue := none

/-- Options for `enumType(...)`. -/
structure EnumOpts where
  optFlag : Option Bool := none
  reqFlag : Option Bool := none
  dflt : Option String := none

/-- Options for `entity(...)`. -/
structure EntityOpts where
  optFlag : Option Bool := none
  reqFlag : Option Bool := none
  dflt : Option String := none

/-- Options for `array(...)`.  The TypeScript interface declares no
`default`, but the constructor probes `'default' in options` at runtime,
so the model keeps the slot. -/
structure ArrayOpts where
  optFlag : Option Bool := none
  reqFlag : Option Bool := none
  minItems : Option ℕ := none
  maxItems : Option ℕ := none
  uniqueBy : Option String := none
  dflt : Option JsValue := none

/-- Options for `object(...)` (same runtime `default` probe as arrays). -/
structure ObjOpts where
  optFlag : Option Bool := none
  reqFlag : Option Bool := none
  dflt : Option JsValue := none

/-- A constructed field descriptor: the kind tag plus its options, with
nested schema definitions for `array`/`object`.  `optional`, `hasDefault`
and the default producer are recovered by the functions below, exactly as
each constructor computes them. -/
inductive Field where
  | text (o : TextOpts)
  | markdown (o : MdOpts)
  | number (o : NumberOpts)
  | boolean (o : BoolOpts)
  | date (o : DateOpts)
  | enum (values : List String) (o : EnumOpts)
  | entity (etype : String) (o : EntityOpts)
  | array (o : ArrayOpts) (item : List (String × Field))
  | object (o : ObjOpts) (shape : List (String × Field))

/-- A schema definition: ordered field-name/descriptor bindings. -/
abbrev Defn := List (String × Field)

/-- The `optional` flag each constructor computes via `resolveOptional`. -/
def fieldOptional : Field → Bool
  | .text o => resolveOptional o.optFlag o.reqFlag o.dflt.isSome
  | .markdown o => resolveOptional o.optFlag o.reqFlag o.dflt.isSome
  | .number o => resolveOptional o.optFlag o.reqFlag o.dflt.isSome
  | .boolean o => resolveOptional o.optFlag o.reqFlag o.dflt.isSome
  | .date o => resolveOptional o.optFlag o.reqFlag o.dflt.isSome
  | .enum _ o => resolveOptional o.optFlag o.reqFlag o.dflt.isSome
  | .entity _ o => resolveOptional o.optFlag o.reqFlag o.dflt.isSome
  | .array o _ => resolveOptional o.optFlag o.reqFlag o.dflt.isSome
  | .object o _ => resolveOptional o.optFlag o.reqFlag o.dflt.isSome

/-- The `hasDefault` flag each constructor computes
(`'default' in opts && opts.default !== undefined`). -/
def fieldHasDefault : Field → Bool
  | .text o => o.dflt.isSome
  | .markdown o => o.dflt.isSome
  | .number o => o.dflt.isSome
  | .boolean o => o.dflt.isSome
  | .date o => o.dflt.isSome
  | .enum _ o => o.dflt.isSome
  | .entity _ o => o.dflt.isSome
  | .array o _ => o.dflt.isSome
  | .object o _ => o.dflt.isSome

/-- `determineNumberPrecision` from `internal.ts`:
`value.toString().split('.')` and the length of the second segment
(the characters after the first `'.'` up to the next `'.'`). -/
def splitDecimals : List Char → Option (List Char)
  | [] => none
  | c :: rest => if c = '.' then some (rest.takeWhile (fun d => d ≠ '.')) else splitDecimals rest

/-- Decimal-digit count the code attributes to a number, computed from its
`toString()` rendering. -/
def determineNumberPrecision (s : String) : ℕ :=
  match splitDecimals s.data with
  | some ds => ds.length
  | none => 0

/-- Truncation toward zero (ECMAScript `ToIntegerOrInfinity` on a finite value). -/
def truncRat (q : ℚ) : ℤ :=
  if 0 ≤ q then q.floor else -((-q).floor)

/-- `new Date(t)` on a finite number: valid iff `|t| ≤ 8.64e15`
(ECMAScript TimeClip), storing the truncated millisecond count. -/
def jsTimeClip (q : ℚ) : Option ℤ :=
  if |q| ≤ (8640000000000000 : ℚ) then some (truncRat q) else none

/-- `determineDate` from `internal.ts`: a valid `Date` instance wins, then a
numeric timestamp (seconds scaled by 1000 under `fromUnix`), then a host-
parseable string (`sp` is the host's `new Date(string)` behaviour); anything
else fails.  `none` is the failure case (the source returns an issue
builder, reproduced at the call sites). -/
def determineDate (sp : String → Option ℤ) (o : DateOpts) (v : JsValue) : Option ℤ :=
  match v with
  | .date t => some t
  | .num x => jsTimeClip (if o.fromUnix then x.val * 1000 else x.val)
  | .str s => sp s
  | _ => none

/-- The lazy default producer each constructor installs.  Leaf kinds return
the configured value; the `date` constructor re-resolves its default through
`determineDate` and throws `'Invalid default date value'` if that fails;
`array` and `object` install `defaultValue: undefined` (no producer) even
when a default was supplied. -/
def fieldDefaultValue (sp : String → Option ℤ) : Field → Option (Except String JsValue)
  | .text o => o.dflt.map (fun s => .ok (.str s))
  | .markdown o => o.dflt.map (fun s => .ok (.str s))
  | .number o => o.dflt.map (fun x => .ok (.num x))
  | .boolean o => o.dflt.map (fun b => .ok (.bool b))
  | .date o =>
    o.dflt.map (fun d =>
      match determineDate sp o d with
      | some t => .ok (.date t)
      | none => .error "Invalid default date value")
  | .enum _ o => o.dflt.map (fun s => .ok (.str s))
  | .entity _ o => o.dflt.map (fun s => .ok (.str s))
  | .array _ _ => none
  | .object _ _ => none

/-- Result of a single field's `parse` (`FieldParseResult` in `types.ts`). -/
inductive FieldRes where
  | ok (v : JsValue)
  | fail (issues : List ParseIssue)
deriving Repr

/-- Result of parsing a value against a definition
(`SchemaValidationResult` in `types.ts`). -/
inductive VRes where
  | ok (data : List (String × JsValue))
  | fail (issues : List ParseIssue)
deriving Repr

/-- `text(...)`'s `parse`, from `fields.ts`. -/
def textParse (o : TextOpts) (v : JsValue) (p : List String) : FieldRes :=
  match v with
  | .str s =>
    let step3 : FieldRes :=
      match o.pattern with
      | some re =>
        if re.test s then .ok (.str s)
        else .fail [mkIssue p "Value does not match required pattern" .invalid_format
          (some re.src) (some (.val (.str s)))]
      | none => .ok (.str s)
    let step2 : FieldRes :=
      match o.maxLength with
      | some m =>
        if s.length > m then
          .fail [mkIssue p ("Expected at most " ++ toString m ++ " characters") .too_big
            (some ("<= " ++ toString m)) (some (.nat s.length))]
        else step3
      | none => step3
    match o.minLength with
    | some m =>
      if s.length < m then
        .fail [mkIssue p ("Expected at least " ++ toString m ++ " characters") .too_small
          (some (">= " ++ toString m)) (some (.nat s.length))]
      else step2
    | none => step2
  | w => .fail [mkIssue p "Expected text value" .invalid_type (some "string")
      (some (.tystr (typeOf w)))]

/-- `md(...)`'s `parse`, from `fields.ts`. -/
def mdParse (o : MdOpts) (v : JsValue) (p : List String) : FieldRes :=
  match v with
  | .str s =>
    match o.maxLength with
    | some m =>
      if s.length > m then
        .fail [mkIssue p ("Markdown exceeds maximum length " ++ toString m) .too_big
          (some ("<= " ++ toString m)) (some (.nat s.length))]
      else .ok (.str s)
    | none => .ok (.str s)
  | w => .fail [mkIssue p "Expected markdown string" .invalid_type (some "string")
      (some (.tystr (typeOf w)))]

/-- `number(...)`'s `parse`, from `fields.ts` (NaN is `invalid_type`; then
`min`, `max`, and the `toString`-based precision check, in source order). -/
def numberParse (o : NumberOpts) (v : JsValue) (p : List String) : FieldRes :=
  match v with
  | .num x =>
    let stepPrec : FieldRes :=
      match o.precision with
      | some pr =>
        if determineNumberPrecision x.str > pr then
          .fail [mkIssue p ("Value exceeds precision of " ++ toString pr ++ " decimals")
            .invalid_format]
        else .ok (.num x)
      | none => .ok (.num x)
    let stepMax : FieldRes :=
      match o.max with
      | some mx =>
        if mx.val < x.val then
          .fail [mkIssue p ("Value must be <= " ++ mx.str) .too_big
            (some ("<= " ++ mx.str)) (some (.val (.num x)))]
        else stepPrec
      | none => stepPrec
    match o.min with
    | some mn =>
      if x.val < mn.val then
        .fail [mkIssue p ("Value must be >= " ++ mn.str) .too_small
          (some (">= " ++ mn.str)) (some (.val (.num x)))]
      else stepMax
    | none => stepMax
  | w => .fail [mkIssue p "Expected numeric value" .invalid_type (some "number")
      (some (.val w))]

/-- `boolean(...)`'s `parse`, from `fields.ts`. -/
def boolParse (v : JsValue) (p : List String) : FieldRes :=
  match v with
  | .bool b => .ok (.bool b)
  | w => .fail [mkIssue p "Expected boolean value" .invalid_type (some "boolean")
      (some (.tystr (typeOf w)))]

/-- `date(...)`'s `parse`, from `fields.ts`, via `determineDate`. -/
def dateParse (sp : String → Option ℤ) (o : DateOpts) (v : JsValue) (p : List String) : FieldRes :=
  match determineDate sp o v with
  | some t => .ok (.date t)
  | none => .fail [mkIssue p
      "Invalid date value. Expected ISO string, unix timestamp, or Date instance."
      .invalid_date none (some (.val v))]

/-- `enumType(...)`'s `parse`, from `fields.ts`. -/
def enumParse (values : List String) (v : JsValue) (p : List String) : FieldRes :=
  match v with
  | .str s =>
    if values.contains s then .ok (.str s)
    else .fail [mkIssue p ("Value must be one of: " ++ String.intercalate ", " values)
      .invalid_enum_value (some (String.intercalate " | " values)) (some (.val (.str s)))]
  | w => .fail [mkIssue p "Expected string enum value" .invalid_type (some "string")
      (some (.tystr (typeOf w)))]

/-- `entity(...)`'s `parse`, from `fields.ts`. -/
def entityParse (v : JsValue) (p : List String) : FieldRes :=
  match v with
  | .str s => .ok (.str s)
  | w => .fail [mkIssue p "Expected entity identifier string" .invalid_type (some "string")
      (some (.tystr (typeOf w)))]

/-- SameValueZero, the equality JavaScript `Set` membership uses.  Heap
values (dates, arrays, objects) compare by reference; the engine only adds
freshly produced parse outputs to its uniqueness set, modelled as `false`. -/
def svz : JsValue → JsValue → Bool
  | .undef, .undef => true
  | .null, .null => true
  | .bool a, .bool b => a == b
  | .nan, .nan => true
  | .num a, .num b => a.val == b.val
  | .str a, .str b => a == b
  | _, _ => false

/-- The `uniqueBy` scan of `array(...)`'s `parse`: walk the successfully
parsed items, skip `undefined` keys, report the first duplicate key value. -/
def uniqueScanAux (u : String) (seen : List JsValue) :
    List (List (String × JsValue)) → Option JsValue
  | [] => none
  | item :: rest =>
    let key := jsGet item u
    match key with
    | .undef => uniqueScanAux u seen rest
    | k => if seen.any (fun s => svz s k) then some k else uniqueScanAux u (k :: seen) rest

/-- `key in definition` (the strict-mode membership probe). -/
def keyMem (k : String) (d : Defn) : Bool :=
  d.any (fun e => e.fst == k)

/-- The strict-mode pass of `parseDefinition`: one `invalid_type`-coded
`Unexpected field` issue per input key absent from the definition. -/
def strictIssues (record : List (String × JsValue)) (d : Defn) (p : List String) :
    List ParseIssue :=
  record.filterMap (fun kv =>
    if keyMem kv.fst d then none
    else some (mkIssue (appendPath p kv.fst) "Unexpected field" .invalid_type))

/-- `ensureObject` from `validation.ts`: only non-null `typeof 'object'`
non-array values pass; a `Date` instance passes with no own keys. -/
def ensureObject (v : JsValue) (p : List String) :
    Except (List ParseIssue) (List (String × JsValue)) :=
  match v with
  | .obj fields => .ok fields
  | .date _ => .ok []
  | w => .error [mkIssue p "Expected object value" .invalid_type (some "object")
      (some (.val w))]

/-- `Field is required` issue (`issue(fieldPath, 'Field is required', 'required')`). -/
def requiredIssue (p : List String) : ParseIssue :=
  mkIssue p "Field is required" .required

/-- Min/max-items issues of `array(...)`'s parse, in source order. -/
def arrayLenIssues (o : ArrayOpts) (len : ℕ) (p : List String) : List ParseIssue :=
  (match o.minItems with
   | some m =>
     if len < m then
       [mkIssue p ("Expected at least " ++ toString m ++ " items") .too_small
         (some (">= " ++ toString m)) (some (.nat len))]
     else []
   | none => []) ++
  (match o.maxItems with
   | some m =>
     if len > m then
       [mkIssue p ("Expected at most " ++ toString m ++ " items") .too_big
         (some ("<= " ++ toString m)) (some (.nat len))]
     else []
   | none => [])

mutual

/-- A descriptor's `parse(value, ctx)`.  Leaf kinds never throw; `array`
and `object` recurse through `parseDefn` (with strict mode OFF — the
nested calls in `fields.ts` omit the options argument), which can throw
only from a default-value producer. -/
def parseField (sp : String → Option ℤ) : Field → JsValue → List String →
    Except String FieldRes
  | .text o, v, p => .ok (textParse o v p)
  | .markdown o, v, p => .ok (mdParse o v p)
  | .number o, v, p => .ok (numberParse o v p)
  | .boolean _, v, p => .ok (boolParse v p)
  | .date o, v, p => .ok (dateParse sp o v p)
  | .enum values _, v, p => .ok (enumParse values v p)
  | .entity _ _, v, p => .ok (entityParse v p)
  | .object _ shape, v, p => do
    match ← parseDefn sp shape v p false with
    | .ok data => .ok (.ok (.obj data))
    | .fail issues => .ok (.fail issues)
  | .array o item, v, p =>
    match v with
    | .arr xs => do
      let (datas, itemIssues) ← parseItems sp item xs p 0
      let issues := arrayLenIssues o xs.length p ++ itemIssues
      if issues.isEmpty then
        match o.uniqueBy with
        | some u =>
          match uniqueScanAux u [] datas with
          | some k => .ok (.fail [mkIssue p
              ("Array items must be unique by \"" ++ u ++ "\"") .invalid_format
              none (some (.val k))])
          | none => .ok (.ok (.arr (datas.map (fun r => .obj r))))
        | none => .ok (.ok (.arr (datas.map (fun r => .obj r))))
      else .ok (.fail issues)
    | w => .ok (.fail [mkIssue p "Expected array value" .invalid_type (some "array")
        (some (.tystr (typeOf w)))])

termination_by f _ _ => (sizeOf f, 0)

/-- The `value.forEach` loop of `array(...)`'s parse: parse each element
against the item definition at `path ++ [index]`, collecting successful
data records and element issues in order. -/
def parseItems (sp : String → Option ℤ) (item : Defn) (xs : List JsValue)
    (p : List String) (i : ℕ) :
    Except String (List (List (String × JsValue)) × List ParseIssue) :=
  match xs with
  | [] => .ok ([], [])
  | x :: rest => do
    let nested ← parseDefn sp item x (appendPath p (toString i)) false
    let (datas, issues) ← parseItems sp item rest p (i + 1)
    match nested with
    | .ok data => .ok (data :: datas, issues)
    | .fail iss => .ok (datas, iss ++ issues)

termination_by (sizeOf item, xs.length + 3)

/-- One iteration of `parseDefinition`'s field loop: default/required
resolution for nullish raw values, otherwise the field's own `parse`. -/
def parseEntry (sp : String → Option ℤ) (k : String) (f : Field)
    (record : List (String × JsValue)) (p : List String) :
    Except String (List (String × JsValue) × List ParseIssue) :=
  let raw := jsGet record k
  if isNullish raw then
    if fieldOptional f then
      if fieldHasDefault f then
        match fieldDefaultValue sp f with
        | some (.ok w) => .ok ([(k, w)], [])
        | some (.error e) => .error e
        | none => .ok ([], [])
      else .ok ([], [])
    else .ok ([], [requiredIssue (appendPath p k)])
  else do
    match ← parseField sp f raw (appendPath p k) with
    | .ok w => .ok ([(k, w)], [])
    | .fail iss => .ok ([], iss)

termination_by (sizeOf f, 2)

/-- The field loop of `parseDefinition` over the definition's bindings in
declaration order, concatenating outputs and issues. -/
def parseFieldsLoop (sp : String → Option ℤ) (d : Defn)
    (record : List (String × JsValue)) (p : List String) :
    Except String (List (String × JsValue) × List ParseIssue) :=
  match d with
  | [] => .ok ([], [])
  | (k, f) :: rest => do
    let (hd, hdIss) ← parseEntry sp k f record p
    let (tl, tlIss) ← parseFieldsLoop sp rest record p
    .ok (hd ++ tl, hdIss ++ tlIss)

termination_by (sizeOf d, 0)

/-- `parseDefinition` from `validation.ts`: ensure an object, run the field
loop, append strict-mode issues, and fail iff any issue was collected. -/
def parseDefn (sp : String → Option ℤ) (d : Defn) (v : JsValue) (p : List String)
    (strict : Bool) : Except String VRes :=
  match ensureObject v p with
  | .error iss => .ok (.fail iss)
  | .ok record => do
    let (data, issues) ← parseFieldsLoop sp d record p
    let allIss := issues ++ (if strict then strictIssues record d p else [])
    if allIss.isEmpty then .ok (.ok data) else .ok (.fail allIss)
termination_by (sizeOf d, 1)

end

/-- Normalized schema-level options (`normalizeOptions` in `builder.ts`).
Only `strict` influences validation; `name`/`description`/`version`/
`examples` feed prompt rendering and exporters, which the claims do not
touch. -/
structure SchemaOpts where
  strict : Bool := false

/-- Raw input to `safeParse`: a JSON-encoded string or an already-decoded
value. -/
inductive JsInput where
  | str (s : String)
  | val (v : JsValue)

/-- `parseRoot` from `validation.ts`: parse at the empty path with the
schema's strict flag. -/
def parseRoot (sp : String → Option ℤ) (d : Defn) (v : JsValue) (opts : SchemaOpts) :
    Except String VRes :=
  parseDefn sp d v [] opts.strict

/-- `normalizeInput` from `builder.ts`.  `jp` is the host `JSON.parse`
(`none` = it threw) and `jmsg` the thrown error's message.  String input is
decoded (decode failure becomes a root `invalid_format` issue); a non-null
`typeof 'object'` value passes through; everything else is a root
`invalid_type` issue. -/
def normalizeInput (jp : String → Option JsValue) (jmsg : String → String) :
    JsInput → Except (List ParseIssue) JsValue
  | .str s =>
    match jp s with
    | some v => .ok v
    | none => .error [mkIssue [] ("Failed to parse JSON input: " ++ jmsg s) .invalid_format
        (some "json_object") (some (.val (.str s)))]
  | .val v =>
    if typeOf v == "object" && !(v matches .null) then .ok v
    else .error [mkIssue [] "Expected object input" .invalid_type (some "object")
        (some (.val v))]

/-- `safeParse` from `builder.ts`: normalize, then `parseRoot`.  The outer
`Except String` is the JavaScript exception channel (a misconfigured
default-value producer throws through `safeParse`). -/
def safeParse (jp : String → Option JsValue) (jmsg : String → String)
    (sp : String → Option ℤ) (d : Defn) (opts : SchemaOpts) (input : JsInput) :
    Except String VRes :=
  match normalizeInput jp jmsg input with
  | .error iss => .ok (.fail iss)
  | .ok v => parseRoot sp d v opts

/-- What `parse` can throw: the aggregate `SchemaError` (message plus full
issue list) on a failure result, or a propagated internal error. -/
inductive PThrow where
  | schemaError (message : String) (issues : List ParseIssue)
  | internal (message : String)

/-- `parse` from `builder.ts`: delegate to `safeParse`; on failure throw
`SchemaError('Failed to parse schema data', issues)`. -/
def parseStrict (jp : String → Option JsValue) (jmsg : String → String)
    (sp : String → Option ℤ) (d : Defn) (opts : SchemaOpts) (input : JsInput) :
    Except PThrow (List (String × JsValue)) :=
  match safeParse jp jmsg sp d opts input with
  | .error m => .error (.internal m)
  | .ok (.ok data) => .ok data
  | .ok (.fail iss) => .error (.schemaError "Failed to parse schema data" iss)

/-! ## Transform pipeline (`transform.ts`) -/

/-- `Object.entries` on a `typeof 'object'` value: object fields, indexed
array entries, nothing for a `Date`. -/
def jsEntries : JsValue → List (String × JsValue)
  | .obj fs => fs
  | .arr xs => (xs.enum).map (fun iv => (toString iv.fst, iv.snd))
  | _ => []

/-- Property read `value[key]` on an arbitrary value: object fields, array
indices and `length`, `undefined` everywhere else. -/
def jsGetProp (v : JsValue) (k : String) : JsValue
  := match v with
  | .obj fs => jsGet fs k
  | .arr xs =>
    if k == "length" then .num ⟨(xs.length : ℚ), toString xs.length⟩
    else jsGet ((xs.enum).map (fun iv => (toString iv.fst, iv.snd))) k
  | _ => (.undef : JsValue)

/-- `a === b` as `deepEqual`'s fast path sees it: value equality on
primitives (`NaN === NaN` is false), reference equality on heap values
(modelled `false`; structurally equal heap values take the recursive path
to the same verdict on NaN-free data). -/
def strictEqModel : JsValue → JsValue → Bool
  | .undef, .undef => true
  | .null, .null => true
  | .bool a, .bool b => a == b
  | .num a, .num b => a.val == b.val
  | .str a, .str b => a == b
  | _, _ => false

mutual

/-- `deepEqual` from `transform.ts`, in source order: `===`, the Date
timestamp case, `typeof` mismatch, non-object/null rejection, element-wise
arrays, then `Object.entries`-based comparison (which also covers the
degenerate mixed object/array/Date pairs the source lets through). -/
def deepEqual (a b : JsValue) : Bool :=
  if strictEqModel a b then true
  else
    match a, b with
    | .date s, .date t => s == t
    | a, b =>
      if typeOf a != typeOf b then false
      else if typeOf a != "object" then false
      else if (a matches .null) || (b matches .null) then false
      else
        match a, b with
        | .arr xs, .arr ys => (xs.length == ys.length) && deepEqualElems xs ys 0
        | .obj fs, b => ((jsEntries (.obj fs)).length == (jsEntries b).length)
            && deepEqualFields fs b
        | .arr xs, b => ((jsEntries (.arr xs)).length == (jsEntries b).length)
            && deepEqualIdx xs b 0
        | .date _, b => (jsEntries b).length == 0
        | _, _ => false

/-- `a.every((value, index) => deepEqual(value, b[index]))` for arrays. -/
def deepEqualElems (xs ys : List JsValue) (i : ℕ) : Bool :=
  match xs with
  | [] => true
  | v :: rest => deepEqual v (ys.getD i .undef) && deepEqualElems rest ys (i + 1)

/-- `aEntries.every(([key, value]) => deepEqual(value, b[key]))` for an
object left-hand side. -/
def deepEqualFields (fs : List (String × JsValue)) (b : JsValue) : Bool :=
  match fs with
  | [] => true
  | (k, v) :: rest => deepEqual v (jsGetProp b k) && deepEqualFields rest b

/-- The entries comparison when the left-hand side is an array but the
right-hand side is not (entries are the stringified indices). -/
def deepEqualIdx (xs : List JsValue) (b : JsValue) (i : ℕ) : Bool :=
  match xs with
  | [] => true
  | v :: rest => deepEqual v (jsGetProp b (toString i)) && deepEqualIdx rest b (i + 1)

end

/-- One `{path, before?, after?}` entry of a diff. -/
structure DiffChange where
  path : String
  before : Option JsValue := none
  after : Option JsValue := none
deriving Repr

/-- `DiffResult`: disjoint added/removed/changed lists. -/
structure DiffResult where
  added : List DiffChange := []
  removed : List DiffChange := []
  changed : List DiffChange := []
deriving Repr

/-- `joinPath` from `transform.ts` (dot-joined string paths, empty parent
means root). -/
def joinPath (parent : String) (key : String) : String :=
  if parent == "" then key else parent ++ "." ++ key

/-- Concatenation of diff accumulators in traversal order. -/
def DiffResult.append (r s : DiffResult) : DiffResult :=
  { added := r.added ++ s.added
    removed := r.removed ++ s.removed
    changed := r.changed ++ s.changed }

/-- JavaScript truthiness of a modelled value. -/
def jsTruthy : JsValue → Bool
  | .undef => false
  | .null => false
  | .bool b => b
  | .nan => false
  | .num x => x.val != 0
  | .str s => s != ""
  | .date _ => true
  | .arr _ => true
  | .obj _ => true

/-- The index-aligned element loop of `diffSchemaData`'s array branch:
`prevArray[i]` vs `nextArray[i]` up to the longer length, emitting
added/removed for one-sided indices and changed on `deepEqual` failure. -/
def diffArrayLoop (pxs nxs : List JsValue) (path : String) : ℕ → ℕ → DiffResult
  | 0, _ => {}
  | m + 1, i =>
    let pItem := pxs.getD i .undef
    let nItem := nxs.getD i .undef
    let itemPath := joinPath path (toString i)
    let here : DiffResult :=
      if pItem.isUndef && !nItem.isUndef then { added := [{ path := itemPath, after := some nItem }] }
      else if !pItem.isUndef && nItem.isUndef then { removed := [{ path := itemPath, before := some pItem }] }
      else if !(deepEqual pItem nItem) then
        { changed := [{ path := itemPath, before := some pItem, after := some nItem }] }
      else {}
    here.append (diffArrayLoop pxs nxs path m (i + 1))

mutual

/-- `walk` from `diffSchemaData`: absence handling, index-aligned array
comparison, object-shape recursion, `deepEqual` for leaves. -/
def diffWalk (f : Field) (pv nv : JsValue) (path : String) : DiffResult :=
  if pv.isUndef && nv.isUndef then {}
  else if pv.isUndef then { added := [{ path := path, after := some nv }] }
  else if nv.isUndef then { removed := [{ path := path, before := some pv }] }
  else
    match f with
    | .array _ _ =>
      let pxs := match pv with | .arr xs => xs | _ => []
      let nxs := match nv with | .arr xs => xs | _ => []
      diffArrayLoop pxs nxs path (max pxs.length nxs.length) 0
    | .object _ shape =>
      if jsTruthy pv && jsTruthy nv then diffWalkFields shape pv nv path
      else if !(deepEqual pv nv) then
        { changed := [{ path := path, before := some pv, after := some nv }] }
      else {}
    | _ =>
      if !(deepEqual pv nv) then
        { changed := [{ path := path, before := some pv, after := some nv }] }
      else {}

/-- The nested-shape loop of `walk`'s object branch. -/
def diffWalkFields (shape : Defn) (pv nv : JsValue) (path : String) : DiffResult :=
  match shape with
  | [] => {}
  | (k, f) :: rest =>
    (diffWalk f (jsGetProp pv k) (jsGetProp nv k) (joinPath path k)).append
      (diffWalkFields rest pv nv path)

end

/-- `diffSchemaData` from `transform.ts`: walk each top-level field. -/
def diffSchemaData (d : Defn) (previous next : List (String × JsValue)) : DiffResult :=
  match d with
  | [] => {}
  | (k, f) :: rest =>
    (diffWalk f (jsGet previous k) (jsGet next k) k).append (diffSchemaData rest previous next)

/-- `MergeOptions` from `transform.ts`. -/
structure MergeOpts where
  arrayStrategy : Option String := none
  preferNewArrays : Bool := false

/-- Property assignment `record[key] = value`: overwrite the existing
binding in place, else append. -/
def jsSet (fields : List (String × JsValue)) (k : String) (v : JsValue) :
    List (String × JsValue) :=
  match fields with
  | [] => [(k, v)]
  | (k', v') :: rest => if k' == k then (k, v) :: rest else (k', v') :: jsSet rest k v

mutual

/-- `mergeField` from `mergeSchemaData`: an `undefined` update keeps the
base; arrays replace (or append under `arrayStrategy: 'append'`), guarded
by `Array.isArray` on both sides; objects spread the base and merge the
nested shape key-by-key; every other kind takes the update outright.
(The source's `preferNewArrays ? updateValue : updateValue` yields the
update either way.) -/
def mergeField (mo : MergeOpts) (f : Field) (baseV updateV : JsValue) : JsValue :=
  match updateV with
  | .undef => baseV
  | updateV =>
    match f with
    | .array _ _ =>
      match baseV, updateV with
      | .arr bxs, .arr uxs =>
        if mo.arrayStrategy == some "append" then .arr (bxs ++ uxs) else .arr uxs
      | .arr bxs, _ => .arr bxs
      | _, _ => updateV
    | .object _ shape =>
      let spreadBase : List (String × JsValue) :=
        if jsTruthy baseV && typeOf baseV == "object" then jsEntries baseV else []
      .obj (mergeShapeLoop mo shape baseV updateV spreadBase)
    | _ => updateV

/-- The nested-shape assignment loop of `mergeField`'s object branch. -/
def mergeShapeLoop (mo : MergeOpts) (shape : Defn) (baseV updateV : JsValue)
    (acc : List (String × JsValue)) : List (String × JsValue) :=
  match shape with
  | [] => acc
  | (k, nf) :: rest =>
    mergeShapeLoop mo rest baseV updateV
      (jsSet acc k (mergeField mo nf (jsGetProp baseV k) (jsGetProp updateV k)))

end

/-- The top-level assignment loop of `mergeSchemaData`. -/
def mergeTopLoop (mo : MergeOpts) (d : Defn) (base updates : List (String × JsValue))
    (acc : List (String × JsValue)) : List (String × JsValue) :=
  match d with
  | [] => acc
  | (k, f) :: rest =>
    mergeTopLoop mo rest base updates
      (jsSet acc k (mergeField mo f (jsGet base k) (jsGet updates k)))

/-- `mergeSchemaData` from `transform.ts`: spread the base, then assign
each definition key its merged value. -/
def mergeSchemaData (d : Defn) (base updates : List (String × JsValue))
    (mo : MergeOpts) : List (String × JsValue) :=
  mergeTopLoop mo d base updates base

/-! ## Search (`searchSchemaData` in `transform.ts`) -/

/-- `SearchOptions`. -/
structure SearchOpts where
  caseSensitive : Option Bool := none
  matchMarkdown : Option Bool := none
  limit : Option ℕ := none

/-- A search hit. -/
structure SearchResult where
  path : String
  value : JsValue
  excerpt : String
deriving Repr

/-- The whitespace characters `String.prototype.trim` strips (the common
set; exotic Unicode `Zs` members do not occur in the data the claims
exercise). -/
def isJsSpace (c : Char) : Bool :=
  c = ' ' || c = '\t' || c = '\n' || c = '\r' ||
    c = (Char.ofNat 11) || c = (Char.ofNat 12) || c = (Char.ofNat 160) || c = (Char.ofNat 65279)

/-- `!query.trim()`: the string is empty after trimming. -/
def jsTrimEmpty (s : String) : Bool :=
  s.data.all isJsSpace

/-- `String.prototype.toLowerCase` (per-character lowering). -/
def jsToLower (s : String) : String :=
  s.map Char.toLower

/-- `haystack.includes(needle)`. -/
def listIncludes (nee : List Char) : List Char → Bool
  | [] => nee.isEmpty
  | c :: rest => nee.isPrefixOf (c :: rest) || listIncludes nee rest

/-- `haystack.indexOf(needle)` (as `none`/index instead of `-1`/index). -/
def listIndexOf (nee : List Char) : List Char → Option ℕ
  | [] => if nee.isEmpty then some 0 else none
  | c :: rest =>
    if nee.isPrefixOf (c :: rest) then some 0
    else (listIndexOf nee rest).map (fun n => n + 1)

/-- `containsMatch` from `transform.ts`. -/
def containsMatch (source query : String) (caseSensitive : Bool) : Bool :=
  if !caseSensitive then listIncludes (jsToLower query).data (jsToLower source).data
  else listIncludes query.data source.data

/-- `buildExcerpt` from `transform.ts`: a window of 30 characters of
context on each side of the first occurrence, ellipsized at cut edges. -/
def buildExcerpt (value query : String) (caseSensitive : Bool) : String :=
  let haystack := if caseSensitive then value else jsToLower value
  let needle := if caseSensitive then query else jsToLower query
  match listIndexOf needle.data haystack.data with
  | none => ⟨value.data.take 160⟩
  | some index =>
    let start := index - 30
    let stop := min (index + query.length + 30) value.length
    (if start > 0 then "…" else "") ++ (⟨(value.data.drop start).take (stop - start)⟩ : String)
      ++ (if stop < value.length then "…" else "")

mutual

/-- `String(value)` for the leaf stringification `searchSchemaData`
performs; `dstr` is the host's `Date.prototype.toString`.  Array join
renders `null`/`undefined` elements as the empty string, objects as
`[object Object]`. -/
def jsString (dstr : ℤ → String) : JsValue → String
  | .undef => "undefined"
  | .null => "null"
  | .bool b => cond b "true" "false"
  | .nan => "NaN"
  | .num x => x.str
  | .str s => s
  | .date t => dstr t
  | .arr xs => String.intercalate "," (jsStringList dstr xs)
  | .obj _ => "[object Object]"
termination_by v => (sizeOf v, 0)

/-- An array element inside `Array.prototype.toString`. -/
def jsStringElem (dstr : ℤ → String) (v : JsValue) : String :=
  match v with
  | .undef => ""
  | .null => ""
  | w => jsString dstr w
termination_by (sizeOf v, 2)

/-- The element list of `Array.prototype.toString`'s join. -/
def jsStringList (dstr : ℤ → String) (xs : List JsValue) : List String :=
  match xs with
  | [] => []
  | v :: rest => jsStringElem dstr v :: jsStringList dstr rest
termination_by (sizeOf xs, 1)

end

mutual

/-- `visit` from `searchSchemaData`: string-like leaves are matched
(markdown only unless `matchMarkdown === false`), arrays recurse per item
per item-definition key, objects recurse per shape key; other kinds
contribute nothing. -/
def searchVisit (dstr : ℤ → String) (query : String) (cs : Bool) (mm : Option Bool) :
    Field → JsValue → String → List SearchResult
  | f, v, path =>
    if isNullish v then []
    else
      match f with
      | .text _ =>
        let sv := jsString dstr v
        if containsMatch sv query cs then
          [{ path := path, value := v, excerpt := buildExcerpt sv query cs }]
        else []
      | .entity _ _ =>
        let sv := jsString dstr v
        if containsMatch sv query cs then
          [{ path := path, value := v, excerpt := buildExcerpt sv query cs }]
        else []
      | .enum _ _ =>
        let sv := jsString dstr v
        if containsMatch sv query cs then
          [{ path := path, value := v, excerpt := buildExcerpt sv query cs }]
        else []
      | .markdown _ =>
        if !(mm == some false) then
          let sv := jsString dstr v
          if containsMatch sv query cs then
            [{ path := path, value := v, excerpt := buildExcerpt sv query cs }]
          else []
        else []
      | .array _ item =>
        match v with
        | .arr xs => searchItems dstr query cs mm item xs path 0
        | _ => []
      | .object _ shape =>
        if typeOf v == "object" && jsTruthy v then
          searchShape dstr query cs mm shape v path
        else []
      | _ => []

/-- The `value.forEach` loop of `visit`'s array branch. -/
def searchItems (dstr : ℤ → String) (query : String) (cs : Bool) (mm : Option Bool)
    (item : Defn) (xs : List JsValue) (path : String) (i : ℕ) : List SearchResult :=
  match xs with
  | [] => []
  | x :: rest =>
    searchShape dstr query cs mm item x (joinPath path (toString i)) ++
      searchItems dstr query cs mm item rest path (i + 1)

/-- Per-key recursion over a nested definition (`child[key]` reads). -/
def searchShape (dstr : ℤ → String) (query : String) (cs : Bool) (mm : Option Bool)
    (shape : Defn) (child : JsValue) (path : String) : List SearchResult :=
  match shape with
  | [] => []
  | (k, nf) :: rest =>
    searchVisit dstr query cs mm nf (jsGetProp child k) (joinPath path k) ++
      searchShape dstr query cs mm rest child path

end

/-- The truthiness-filtered limit (`options.limit && ...` / ternary slice:
a limit of 0 is falsy and behaves as no limit). -/
def limitVal (o : SearchOpts) : Option ℕ :=
  match o.limit with
  | some n => if n = 0 then none else some n
  | none => none

/-- The top-level loop of `searchSchemaData` with its opportunistic
limit break. -/
def searchTopLoop (dstr : ℤ → String) (query : String) (cs : Bool) (mm : Option Bool)
    (lim : Option ℕ) (data : List (String × JsValue)) :
    Defn → List SearchResult → List SearchResult
  | [], acc => acc
  | (k, f) :: rest, acc =>
    let acc2 := acc ++ searchVisit dstr query cs mm f (jsGet data k) k
    match lim with
    | some n => if acc2.length ≥ n then acc2 else searchTopLoop dstr query cs mm lim data rest acc2
    | none => searchTopLoop dstr query cs mm lim data rest acc2

/-- `searchSchemaData` from `transform.ts`: empty/whitespace queries
short-circuit to no results; otherwise walk every top-level field and
apply the advisory limit at the end. -/
def searchSchemaData (dstr : ℤ → String) (d : Defn) (data : List (String × JsValue))
    (query : String) (o : SearchOpts) : List SearchResult :=
  let cs := o.caseSensitive.getD false
  if jsTrimEmpty query then []
  else
    let res := searchTopLoop dstr query cs o.matchMarkdown (limitVal o) data d []
    match limitVal o with
    | some n => res.take n
    | none => res

/-! ## Claim-side (specification) definitions -/

/-- The raw `options.optional` flag a descriptor was built from. -/
def fieldOptFlag : Field → Option Bool
  | .text o => o.optFlag
  | .markdown o => o.optFlag
  | .number o => o.optFlag
  | .boolean o => o.optFlag
  | .date o => o.optFlag
  | .enum _ o => o.optFlag
  | .entity _ o => o.optFlag
  | .array o _ => o.optFlag
  | .object o _ => o.optFlag

/-- The raw `options.required` flag a descriptor was built from. -/
def fieldReqFlag : Field → Option Bool
  | .text o => o.reqFlag
  | .markdown o => o.reqFlag
  | .number o => o.reqFlag
  | .boolean o => o.reqFlag
  | .date o => o.reqFlag
  | .enum _ o => o.reqFlag
  | .entity _ o => o.reqFlag
  | .array o _ => o.reqFlag
  | .object o _ => o.reqFlag

/-- The four-way optionality precedence exactly as the specification words
it: optional if `options.optional === true`; else decided by an explicit
`options.required` flag (`true` ⇒ not optional, `false` ⇒ optional); else
optional if and only if a non-`undefined` default was supplied; else
required. -/
def claimedOptionalPrecedence (optFlag reqFlag : Option Bool) (defaultSupplied : Bool) : Bool :=
  match optFlag, reqFlag with
  | some true, _ => true
  | _, some true => false
  | _, some false => true
  | _, none => defaultSupplied

/-- C4: for every field constructor (all nine kinds) and every options
object, the descriptor's `optional` flag equals the spec's four-way
precedence applied to the raw `optional`/`required` flags and the
presence of a non-`undefined` default. -/
theorem C4_optional_precedence (f : Field) :
    fieldOptional f =
      claimedOptionalPrecedence (fieldOptFlag f) (fieldReqFlag f) (fieldHasDefault f) := by
  have base : ∀ (a b : Option Bool) (ds : Bool),
      resolveOptional a b ds = claimedOptionalPrecedence a b ds := by decide
  cases f <;> simp [fieldOptional, fieldOptFlag, fieldReqFlag, fieldHasDefault, base]

/-- C10: a query that is empty or all-whitespace short-circuits `search`
to the empty result list, for every host stringifier, definition, data
instance and option set. -/
theorem C10_empty_query_search (dstr : ℤ → String) (d : Defn)
    (data : List (String × JsValue)) (query : String) (o : SearchOpts)
    (h : jsTrimEmpty query = true) :
    searchSchemaData dstr d data query o = [] := by
  simp [searchSchemaData, h]

/-- Witness for C10 at a concrete whitespace query. -/
theorem C10_empty_query_search_witness :
    jsTrimEmpty "  " = true ∧
      searchSchemaData (fun _ => "") [("a", .text {})] [("a", .str "x")] "  " {} = [] :=
  ⟨by decide, C10_empty_query_search (fun _ => "") [("a", .text {})] [("a", .str "x")] "  " {}
    (by decide)⟩

/-- C6: for a date field with a configured default, the installed default
producer resolves the default through `determineDate` — the same
three-form routine (Date instance, then numeric timestamp, then host-
parseable string) its `parse` uses for input values.  If that resolution
fails, invoking the producer throws (`Invalid default date value`), a
synchronous error distinct from the Parse-Issue channel; if it succeeds,
the producer yields the resolved date. -/
theorem C6_date_default_producer (sp : String → Option ℤ) (o : DateOpts) (dv : JsValue)
    (hd : o.dflt = some dv) :
    (determineDate sp o dv = none →
      fieldDefaultValue sp (.date o) = some (.error "Invalid default date value")) ∧
    (∀ t, determineDate sp o dv = some t →
      fieldDefaultValue sp (.date o) = some (.ok (.date t))) ∧
    (∀ v p t, determineDate sp o v = some t →
      parseField sp (.date o) v p = .ok (.ok (.date t))) := by
  refine ⟨fun hfail => ?_, fun t hok => ?_, fun v p t hok => ?_⟩
  · simp [fieldDefaultValue, hd, hfail]
  · simp [fieldDefaultValue, hd, hok]
  · simp [parseField, dateParse, hok]

/-- Witness for C6: a string default no host date parser accepts makes the
producer throw. -/
theorem C6_date_default_producer_witness :
    ({ dflt := some (.str "not-a-date") } : DateOpts).dflt = some (.str "not-a-date") ∧
      determineDate (fun _ => none) { dflt := some (.str "not-a-date") } (.str "not-a-date")
        = none ∧
      fieldDefaultValue (fun _ => none) (.date { dflt := some (.str "not-a-date") })
        = some (.error "Invalid default date value") :=
  ⟨rfl, rfl,
    (C6_date_default_producer (fun _ => none) { dflt := some (.str "not-a-date") }
      (.str "not-a-date") rfl).1 rfl⟩

/-- Numeric value of a digit string (most significant digit first). -/
def digitsVal (l : List Char) : ℕ :=
  l.foldl (fun a c => 10 * a + (c.toNat - 48)) 0

theorem splitDecimals_append (pre rest : List Char) (hpre : '.' ∉ pre) :
    splitDecimals (pre ++ '.' :: rest) = some (rest.takeWhile (fun d => d ≠ '.')) := by
  induction pre with
  | nil => simp [splitDecimals]
  | cons c cs ih =>
    have hc : ¬ (c = '.') := fun h => hpre (by simp [h])
    have hcs : '.' ∉ cs := fun h => hpre (List.mem_cons_of_mem c h)
    simp only [List.cons_append, splitDecimals, if_neg hc]
    exact ih hcs

theorem takeWhile_digits (frac : List Char)
    (hdig : ∀ ch ∈ frac, 48 ≤ ch.toNat ∧ ch.toNat ≤ 57) :
    frac.takeWhile (fun d => d ≠ '.') = frac := by
  induction frac with
  | nil => rfl
  | cons c cs ih =>
    have h1 := hdig c (List.mem_cons_self c cs)
    have hc : ¬ (c = '.') := by
      intro h; subst h
      exact absurd h1.1 (by decide)
    simp only [List.takeWhile_cons]
    rw [if_pos (by simpa using hc)]
    rw [ih (fun ch hm => hdig ch (List.mem_cons_of_mem c hm))]

theorem digitsVal_append_last (ys : List Char) (c : Char) :
    digitsVal (ys ++ [c]) = 10 * digitsVal ys + (c.toNat - 48) := by
  simp [digitsVal, List.foldl_append]

/-- C7 (counterexample): the double `2^-23` (`toString` is
`"1.1920928955078125e-7"` — exponential notation) admits no decimal
representation with 20 or fewer fractional digits (its minimal decimal
representation has 23), yet a number field configured with `precision: 20`
accepts it: `determineNumberPrecision` counts the 19 characters after the
`'.'` of the exponential rendering, not the decimal digits of the value.
The claim demands rejection with `invalid_format` here. -/
theorem C7_precision_counterexample :
    (∀ k : ℕ, k ≤ 20 → ∀ m : ℤ, ((1 : ℚ) / 2 ^ 23) ≠ (m : ℚ) / 10 ^ k) ∧
    determineNumberPrecision "1.1920928955078125e-7" = 19 ∧
    numberParse { precision := some 20 }
      (.num ⟨(1 : ℚ) / 2 ^ 23, "1.1920928955078125e-7"⟩) []
      = .ok (.num ⟨(1 : ℚ) / 2 ^ 23, "1.1920928955078125e-7"⟩) := by
  refine ⟨?_, by decide, by simp [numberParse, determineNumberPrecision]; decide⟩
  intro k hk m heq
  have h10 : ((10 : ℚ) ^ k) ≠ 0 := by positivity
  have h2 : ((2 : ℚ) ^ 23) ≠ 0 := by positivity
  rw [div_eq_div_iff h2 h10] at heq
  have h3 : (10 : ℤ) ^ k = m * 2 ^ 23 := by
    have h := heq
    rw [one_mul] at h
    exact_mod_cast h
  have h4 : (2 : ℤ) ^ 23 ∣ (10 : ℤ) ^ k := Dvd.intro_left m h3.symm
  have h5 : (2 : ℕ) ^ 23 ∣ (10 : ℕ) ^ k := by
    have h := Int.natAbs_dvd_natAbs.mpr h4
    have e1 : ((2 : ℤ) ^ 23).natAbs = (2 : ℕ) ^ 23 := by decide
    have e2 : ((10 : ℤ) ^ k).natAbs = (10 : ℕ) ^ k := by
      rw [Int.natAbs_pow]; rfl
    rwa [e1, e2] at h
  have h6 : (2 : ℕ) ^ 23 ∣ 2 ^ k * 5 ^ k := by
    have h : (10 : ℕ) ^ k = 2 ^ k * 5 ^ k := by
      rw [show (10 : ℕ) = 2 * 5 by norm_num, mul_pow]
    rwa [h] at h5
  have hcop : Nat.Coprime (2 ^ 23) (5 ^ k) := Nat.Coprime.pow _ _ (by decide)
  have h7 : (2 : ℕ) ^ 23 ∣ 2 ^ k := (Nat.Coprime.dvd_of_dvd_mul_right hcop) h6
  have h8 : 23 ≤ k := (Nat.pow_dvd_pow_iff_le_right (by norm_num)).mp h7
  omega

/-- C7 (amended): when the value's `toString` is positional decimal
notation — a dot-free prefix, a `'.'`, then a non-empty digit tail not
ending in `'0'` whose numeric value matches the value's fractional part —
the engine's precision count equals the count of decimal digits in the
value's minimal decimal representation (conjuncts 1–2: that count is
exactly `ys.length + 1`), and a `precision: p` number field rejects with
`invalid_format` if and only if that count exceeds `p`.  (For values whose
`toString` falls into exponential notation the equivalence fails — see the
counterexample.) -/
theorem C7_precision_amended (o : NumberOpts) (p : ℕ) (x : JsNum) (path : List String)
    (pre ys : List Char) (c : Char) (I : ℕ) (sgn : ℚ)
    (hmin : o.min = none) (hmax : o.max = none) (hprec : o.precision = some p)
    (hstr : x.str.data = pre ++ '.' :: (ys ++ [c]))
    (hpre : '.' ∉ pre)
    (hdig : ∀ ch ∈ ys ++ [c], 48 ≤ ch.toNat ∧ ch.toNat ≤ 57)
    (hc : c.toNat ≠ 48)
    (hsgn : sgn = 1 ∨ sgn = -1)
    (hval : x.val = sgn * ((I : ℚ) + (digitsVal (ys ++ [c]) : ℚ) / 10 ^ (ys.length + 1))) :
    (∃ m : ℤ, x.val = (m : ℚ) / 10 ^ (ys.length + 1) ∧ ¬ (10 : ℤ) ∣ m) ∧
    (∀ j, j < ys.length + 1 → ∀ m : ℤ, x.val ≠ (m : ℚ) / 10 ^ j) ∧
    numberParse o (.num x) path =
      (if ys.length + 1 > p then
        .fail [mkIssue path ("Value exceeds precision of " ++ toString p ++ " decimals")
          .invalid_format]
      else .ok (.num x)) := by
  set L := ys.length + 1 with hL
  have hdigC := hdig c (by simp)
  have hdlast : digitsVal (ys ++ [c]) = 10 * digitsVal ys + (c.toNat - 48) :=
    digitsVal_append_last ys c
  have hdbounds : 1 ≤ c.toNat - 48 ∧ c.toNat - 48 ≤ 9 := by omega
  have hm0 : ¬ (10 : ℤ) ∣ ((I : ℤ) * 10 ^ L + (digitsVal (ys ++ [c]) : ℤ)) := by
    have hshape : ((I : ℤ) * 10 ^ L + (digitsVal (ys ++ [c]) : ℤ)) =
        10 * ((I : ℤ) * 10 ^ ys.length + (digitsVal ys : ℤ)) + ((c.toNat - 48 : ℕ) : ℤ) := by
      push_cast [hdlast, hL, pow_succ]
      ring
    rw [hshape]
    intro hdvd
    omega
  have key : ∀ m : ℤ, (m : ℚ) = sgn * ((I : ℚ) * 10 ^ L + (digitsVal (ys ++ [c]) : ℚ)) →
      x.val = (m : ℚ) / 10 ^ L := by
    intro m hm
    have hten : ((10 : ℚ) ^ L) ≠ 0 := by positivity
    rw [hval, hm]
    field_simp
    try ring
  have hexist : ∃ m : ℤ, x.val = (m : ℚ) / 10 ^ L ∧ ¬ (10 : ℤ) ∣ m := by
    rcases hsgn with h1 | h1
    · refine ⟨(I : ℤ) * 10 ^ L + (digitsVal (ys ++ [c]) : ℤ), ?_, hm0⟩
      apply key
      rw [h1]; push_cast; try ring
    · refine ⟨-((I : ℤ) * 10 ^ L + (digitsVal (ys ++ [c]) : ℤ)), ?_, ?_⟩
      · apply key
        rw [h1]; push_cast; try ring
      · rw [Int.dvd_neg]; exact hm0
  refine ⟨hexist, ?_, ?_⟩
  · intro j hj m hmj
    obtain ⟨m0, hm0eq, hm0nd⟩ := hexist
    have hj10 : ((10 : ℚ) ^ j) ≠ 0 := by positivity
    have hL10 : ((10 : ℚ) ^ L) ≠ 0 := by positivity
    have heq2 : (m0 : ℚ) / 10 ^ L = (m : ℚ) / 10 ^ j := by rw [← hm0eq, ← hmj]
    rw [div_eq_div_iff hL10 hj10] at heq2
    have hZ : m0 * 10 ^ j = m * 10 ^ L := by exact_mod_cast heq2
    have hfac : (10 : ℤ) ^ L = 10 ^ j * 10 ^ (L - j) := by
      rw [← pow_add]; congr 1; omega
    have hdvd : (10 : ℤ) ∣ m0 := by
      have hcancel : m0 = m * 10 ^ (L - j) := by
        have h10j : ((10 : ℤ) ^ j) ≠ 0 := by positivity
        have h := hZ
        rw [hfac] at h
        have h2 : m0 * 10 ^ j = m * 10 ^ (L - j) * 10 ^ j := by rw [h]; ring
        exact mul_right_cancel₀ h10j h2
      have hLJ : (10 : ℤ) ∣ 10 ^ (L - j) := dvd_pow_self 10 (by omega)
      exact hcancel ▸ Dvd.dvd.mul_left hLJ m
    exact hm0nd hdvd
  · have hdnp : determineNumberPrecision x.str = L := by
      unfold determineNumberPrecision
      rw [hstr, splitDecimals_append _ _ hpre, takeWhile_digits _ hdig]
      simp [hL]
    simp only [numberParse, hmin, hmax, hprec, hdnp]

/-- Witness for C7 (amended) at the double `0.25` under `precision: 1`:
its minimal decimal representation has 2 fractional digits, so parsing
rejects with `invalid_format`. -/
theorem C7_precision_amended_witness :
    (∃ m : ℤ, ((1 : ℚ) / 4) = (m : ℚ) / 10 ^ 2 ∧ ¬ (10 : ℤ) ∣ m) ∧
    (∀ j, j < 2 → ∀ m : ℤ, ((1 : ℚ) / 4) ≠ (m : ℚ) / 10 ^ j) ∧
    numberParse { precision := some 1 } (.num ⟨(1 : ℚ) / 4, "0.25"⟩) [] =
      (if 2 > 1 then
        .fail [mkIssue [] ("Value exceeds precision of " ++ toString 1 ++ " decimals")
          .invalid_format]
      else .ok (.num ⟨(1 : ℚ) / 4, "0.25"⟩)) :=
  C7_precision_amended { precision := some 1 } 1 ⟨(1 : ℚ) / 4, "0.25"⟩ []
    ['0'] ['2'] '5' 0 1 rfl rfl rfl rfl (by decide) (by decide) (by decide)
    (Or.inl rfl)
    (by have h : digitsVal (['2'] ++ ['5']) = 25 := by decide
        rw [h]; norm_num)


/-- `mergeField` keeps the base value untouched whenever the update value
is `undefined`, for every field kind. -/
theorem mergeField_undef (mo : MergeOpts) (f : Field) (bv : JsValue) :
    mergeField mo f bv .undef = bv := by
  rw [mergeField]

theorem jsSet_get_self (l : List (String × JsValue)) (k : String)
    (h : (l.find? (fun kv => kv.fst == k)).isSome) :
    jsSet l k (jsGet l k) = l := by
  induction l with
  | nil => simp [List.find?] at h
  | cons kv rest ih =>
    by_cases hk : kv.fst == k
    · obtain ⟨k', v'⟩ := kv
      simp only [jsGet, jsSet, List.find?, hk]
      simp at hk
      subst hk
      simp
    · obtain ⟨k', v'⟩ := kv
      simp only [jsGet, jsSet, List.find?, hk] at *
      simp only [Bool.not_eq_true] at hk
      rw [if_neg (by simp [hk])]
      have hr := ih (by simpa [List.find?, hk] using h)
      simp only [jsGet] at hr
      simp [hr]

theorem mergeTop_identity (mo : MergeOpts) (d : Defn) (base : List (String × JsValue))
    (h : ∀ kf ∈ d, (base.find? (fun kv => kv.fst == kf.fst)).isSome) :
    mergeTopLoop mo d base [] base = base := by
  induction d with
  | nil => rfl
  | cons kf rest ih =>
    obtain ⟨k, f⟩ := kf
    have h1 : (base.find? (fun kv => kv.fst == k)).isSome = true := h (k, f) (by simp)
    rw [mergeTopLoop]
    have hget : jsGet ([] : List (String × JsValue)) k = .undef := rfl
    rw [hget, mergeField_undef, jsSet_get_self base k h1]
    exact ih (fun kf hm => h kf (List.mem_cons_of_mem _ hm))

/-- C8 (amended): merging an empty updates object is the identity on the
base whenever every definition key has a binding in the base record (which
every parse output with all keys assigned satisfies); absent definition
keys are otherwise appended with an explicit `undefined` value (see the
counterexample). -/
theorem C8_merge_empty_amended (d : Defn) (base : List (String × JsValue)) (mo : MergeOpts)
    (h : ∀ kf ∈ d, (base.find? (fun kv => kv.fst == kf.fst)).isSome) :
    mergeSchemaData d base [] mo = base := by
  unfold mergeSchemaData
  exact mergeTop_identity mo d base h

/-- Witness for C8 (amended): a base carrying the definition's only key is
returned unchanged. -/
theorem C8_merge_empty_amended_witness :
    mergeSchemaData [("a", Field.text {})] [("a", .str "x")] [] {} = [("a", .str "x")] :=
  C8_merge_empty_amended [("a", Field.text {})] [("a", .str "x")] {} (by decide)

/-- C8 (counterexample): for a schema with one optional field `a` and the
base `{}` (a legal parse output — optional absent fields are omitted),
`merge(base, {})` is not the base: it returns `{ a: undefined }`, which
the library's own `deepEqual` distinguishes from `{}` (their
`Object.entries` lengths differ). -/
theorem C8_merge_empty_counterexample :
    mergeSchemaData [("a", Field.text { optFlag := some true })] [] [] {} = [("a", .undef)] ∧
    deepEqual (.obj [("a", .undef)]) (.obj []) = false := by
  constructor
  · rw [mergeSchemaData, mergeTopLoop,
      show jsGet ([] : List (String × JsValue)) "a" = .undef from rfl, mergeField_undef]
    rfl
  · rw [deepEqual]
    all_goals
      first
      | (intro h; exact JsValue.noConfusion h)
      | (simp
         refine ⟨rfl, ?_⟩
         intro h1 h2 h3
         simp [jsEntries] at h3)

/-- Unique keys of a record, as JavaScript objects guarantee. -/
def keysNodupB : List (String × JsValue) → Bool
  | [] => true
  | (k, _) :: rest => !(rest.any (fun kv => kv.fst == k)) && keysNodupB rest

mutual

/-- A value JavaScript data can actually take on a parse output: no NaN
leaves (number fields reject NaN) and recursively unique object keys. -/
def wfValue : JsValue → Bool
  | .nan => false
  | .arr xs => wfList xs
  | .obj fs => keysNodupB fs && wfFields fs
  | _ => true
termination_by v => (sizeOf v, 0)

def wfList (xs : List JsValue) : Bool :=
  match xs with
  | [] => true
  | v :: rest => wfValue v && wfList rest
termination_by (sizeOf xs, 1)

def wfFields (fs : List (String × JsValue)) : Bool :=
  match fs with
  | [] => true
  | (_, v) :: rest => wfValue v && wfFields rest
termination_by (sizeOf fs, 1)

end

theorem wfList_mem {xs : List JsValue} (h : wfList xs = true) {v : JsValue} (hv : v ∈ xs) :
    wfValue v = true := by
  induction xs with
  | nil => cases hv
  | cons w rest ih =>
    rw [wfList] at h
    simp only [Bool.and_eq_true] at h
    rcases List.mem_cons.mp hv with h1 | h1
    · exact h1 ▸ h.1
    · exact ih h.2 h1

theorem wfFields_mem {fs : List (String × JsValue)} (h : wfFields fs = true)
    {kv : String × JsValue} (hv : kv ∈ fs) : wfValue kv.snd = true := by
  induction fs with
  | nil => cases hv
  | cons w rest ih =>
    obtain ⟨k, v⟩ := w
    rw [wfFields] at h
    simp only [Bool.and_eq_true] at h
    rcases List.mem_cons.mp hv with h1 | h1
    · rw [h1]; exact h.1
    · exact ih h.2 h1

theorem wf_jsGet {l : List (String × JsValue)} (h : ∀ kv ∈ l, wfValue kv.snd = true)
    (k : String) : wfValue (jsGet l k) = true := by
  induction l with
  | nil => simp [jsGet, List.find?, wfValue]
  | cons kv rest ih =>
    obtain ⟨k', v'⟩ := kv
    by_cases hk : k' == k
    · simp [jsGet, List.find?, hk]
      exact h (k', v') (by simp)
    · simp only [jsGet, List.find?, hk]
      have hres := ih (fun kv hm => h kv (List.mem_cons_of_mem _ hm))
      simpa [jsGet] using hres

theorem wfList_getD {xs : List JsValue} (h : wfList xs = true) : ∀ i,
    wfValue (xs.getD i .undef) = true := by
  induction xs with
  | nil => intro i; simp [List.getD, wfValue]
  | cons v rest ih =>
    intro i
    rw [wfList] at h
    simp only [Bool.and_eq_true] at h
    cases i with
    | zero => simp only [List.getD_cons_zero]; exact h.1
    | succ n => rw [List.getD_cons_succ]; exact ih h.2 n

theorem wf_jsGetProp {v : JsValue} (h : wfValue v = true) (k : String) :
    wfValue (jsGetProp v k) = true := by
  cases v with
  | obj fs =>
    rw [wfValue] at h
    simp only [Bool.and_eq_true] at h
    exact wf_jsGet (fun kv hm => wfFields_mem h.2 hm) k
  | arr xs =>
    rw [wfValue] at h
    by_cases hk : k == "length"
    · simp [jsGetProp, hk, wfValue]
    · simp only [jsGetProp, hk]
      rw [if_neg (by simpa using hk)]
      apply wf_jsGet
      intro kv hm
      obtain ⟨iv, hiv, hkv⟩ := List.mem_map.mp hm
      have : iv.snd ∈ xs := List.snd_mem_of_mem_enum hiv
      rw [← hkv]
      exact wfList_mem h this
  | nan => simp [wfValue] at h
  | undef => simp [jsGetProp, wfValue]
  | null => simp [jsGetProp, wfValue]
  | bool b => simp [jsGetProp, wfValue]
  | num x => simp [jsGetProp, wfValue]
  | str s => simp [jsGetProp, wfValue]
  | date t => simp [jsGetProp, wfValue]

theorem jsGet_of_mem_nodup {fs : List (String × JsValue)} (hnd : keysNodupB fs = true)
    {k : String} {v : JsValue} (hm : (k, v) ∈ fs) : jsGet fs k = v := by
  induction fs with
  | nil => cases hm
  | cons kv rest ih =>
    obtain ⟨k', v'⟩ := kv
    rw [keysNodupB] at hnd
    simp only [Bool.and_eq_true, Bool.not_eq_true'] at hnd
    rcases List.mem_cons.mp hm with h1 | h1
    · have hk : k' = k := (Prod.mk.injEq .. ▸ h1 : _ ∧ _).1.symm
      have hv : v' = v := (Prod.mk.injEq .. ▸ h1 : _ ∧ _).2.symm
      simp [jsGet, List.find?, hk, hv]
    · have hkk : ¬ (k' == k) := by
        intro hb
        have : k' = k := by simpa using hb
        subst this
        have : rest.any (fun kv => kv.fst == k') = true :=
          List.any_eq_true.mpr ⟨(k', v), h1, by simp⟩
        rw [this] at hnd
        exact absurd hnd.1 (by simp)
      have hres := ih hnd.2 h1
      simp only [jsGet, List.find?, hkk] at *
      exact hres



mutual

/-- `deepEqual` is reflexive on well-formed values. -/
theorem deepEqual_refl : ∀ (v : JsValue), wfValue v = true → deepEqual v v = true
  | .undef, _ => by simp only [deepEqual]; simp [strictEqModel]
  | .null, _ => by simp only [deepEqual]; simp [strictEqModel]
  | .bool b, _ => by simp only [deepEqual]; simp [strictEqModel]
  | .nan, h => by rw [wfValue] at h; cases h
  | .num x, _ => by simp only [deepEqual]; simp [strictEqModel]
  | .str s, _ => by simp only [deepEqual]; simp [strictEqModel]
  | .date t, _ => by simp only [deepEqual]; simp [strictEqModel]
  | .arr xs, h => by
    rw [wfValue] at h
    have he : deepEqualElems (xs.drop 0) xs 0 = true := deepEqualElems_drop_refl xs h 0
    simp only [List.drop_zero] at he
    simp only [deepEqual]
    simp [strictEqModel, typeOf, he]
  | .obj fs, h => by
    rw [wfValue] at h
    simp only [Bool.and_eq_true] at h
    have he : deepEqualFields fs (.obj fs) = true :=
      deepEqualFields_refl fs fs (fun kv hm => hm) h.2 h.1
    simp only [deepEqual]
    simp [strictEqModel, typeOf, he]
termination_by v => (sizeOf v, 0)

/-- The element-wise array comparison of a list against itself, from any
starting offset, succeeds. -/
theorem deepEqualElems_drop_refl (full : List JsValue) (h : wfList full = true) (i : ℕ) :
    deepEqualElems (full.drop i) full i = true := by
  rcases hd : full.drop i with _ | ⟨v, rest⟩
  · simp only [deepEqualElems]
  · have hvmem : v ∈ full := by
      have hm : v ∈ full.drop i := by rw [hd]; simp
      exact List.mem_of_mem_drop hm
    have hgetD : full.getD i .undef = v := by
      have h0 : (full.drop i).get? 0 = some v := by rw [hd]; rfl
      rw [List.get?_drop] at h0
      simp only [Nat.add_zero] at h0
      rw [List.get?_eq_getElem?] at h0
      simp [List.getD, h0]
    have hrest : rest = full.drop (i + 1) := by
      have ht : full.drop (i + 1) = (full.drop i).tail := by
        rw [← List.tail_drop]
      rw [ht, hd]
      rfl
    simp only [deepEqualElems, hgetD]
    have h1 : deepEqual v v = true := deepEqual_refl v (wfList_mem h hvmem)
    have h2 : deepEqualElems rest full (i + 1) = true := by
      rw [hrest]
      exact deepEqualElems_drop_refl full h (i + 1)
    rw [h1, h2]
    rfl
termination_by (sizeOf full, full.length - i + 1)
decreasing_by
  all_goals
    have hlen : i < full.length := by
      by_contra hc
      push_neg at hc
      rw [List.drop_eq_nil_of_le hc] at hd
      cases hd
  all_goals decreasing_tactic

/-- The entries comparison of (a sub-list of) an object's fields against
the full object succeeds when keys are unique. -/
theorem deepEqualFields_refl : ∀ (sub fs : List (String × JsValue)),
    (∀ kv ∈ sub, kv ∈ fs) → wfFields sub = true → keysNodupB fs = true →
    deepEqualFields sub (.obj fs) = true
  | [], _, _, _, _ => by simp only [deepEqualFields]
  | (k, v) :: rest, fs, hsub, hwf, hnd => by
    rw [wfFields] at hwf
    simp only [Bool.and_eq_true] at hwf
    have hmem : (k, v) ∈ fs := hsub (k, v) (by simp)
    have hget : jsGetProp (.obj fs) k = v := by
      simp only [jsGetProp]
      exact jsGet_of_mem_nodup hnd hmem
    simp only [deepEqualFields, hget]
    have h1 : deepEqual v v = true := deepEqual_refl v hwf.1
    have h2 : deepEqualFields rest (.obj fs) = true :=
      deepEqualFields_refl rest fs (fun kv hm => hsub kv (List.mem_cons_of_mem _ hm))
        hwf.2 hnd
    rw [h1, h2]
    rfl
termination_by sub => (sizeOf sub, 0)

end



theorem DiffResult.empty_append (r : DiffResult) : DiffResult.append {} r = r := by
  simp [DiffResult.append]

theorem diffArrayLoop_self (xs : List JsValue) (path : String) (h : wfList xs = true) :
    ∀ n i, diffArrayLoop xs xs path n i = {} := by
  intro n
  induction n with
  | zero => intro i; rfl
  | succ m ih =>
    intro i
    rw [diffArrayLoop]
    have hrefl : deepEqual (xs.getD i .undef) (xs.getD i .undef) = true :=
      deepEqual_refl _ (wfList_getD h i)
    simp only [hrefl]
    simp only [Bool.not_eq_true']
    have hcase : ∀ b : Bool, (b && !b) = false := by decide
    rw [ih (i + 1)]
    cases hu : (xs.getD i .undef).isUndef <;> simp [DiffResult.append]

mutual

/-- `walk` of `diffSchemaData` reports nothing when both sides are the
same well-formed value. -/
theorem diffWalk_self : ∀ (f : Field) (v : JsValue) (path : String),
    wfValue v = true → diffWalk f v v path = {}
  | .array o item, v, path, h => by
    cases v with
    | arr xs =>
      rw [wfValue] at h
      simp only [diffWalk]
      simpa [JsValue.isUndef] using diffArrayLoop_self xs path h (max xs.length xs.length) 0
    | nan => rw [wfValue] at h; cases h
    | undef => simp only [diffWalk]; simp [JsValue.isUndef]
    | null => simp only [diffWalk]; simp [JsValue.isUndef, diffArrayLoop]
    | bool b => simp only [diffWalk]; simp [JsValue.isUndef, diffArrayLoop]
    | num x => simp only [diffWalk]; simp [JsValue.isUndef, diffArrayLoop]
    | str s => simp only [diffWalk]; simp [JsValue.isUndef, diffArrayLoop]
    | date t => simp only [diffWalk]; simp [JsValue.isUndef, diffArrayLoop]
    | obj fs => simp only [diffWalk]; simp [JsValue.isUndef, diffArrayLoop]
  | .object o shape, v, path, h => by
    cases v with
    | undef => simp only [diffWalk]; simp [JsValue.isUndef]
    | nan => rw [wfValue] at h; cases h
    | null => simp only [diffWalk]; simp [JsValue.isUndef, jsTruthy, deepEqual_refl _ h]
    | bool b =>
      cases b <;>
        (simp only [diffWalk]
         simp [JsValue.isUndef, jsTruthy, deepEqual_refl _ h,
           diffWalkFields_self shape _ path h])
    | num x =>
      by_cases hx : x.val = 0 <;>
        (simp only [diffWalk]
         simp [JsValue.isUndef, jsTruthy, hx, deepEqual_refl _ h,
           diffWalkFields_self shape _ path h])
    | str s =>
      by_cases hs : s = ""
      · subst hs
        simp only [diffWalk]
        simp [JsValue.isUndef, jsTruthy, deepEqual_refl _ h]
      · simp only [diffWalk]
        simp [JsValue.isUndef, jsTruthy, hs, deepEqual_refl _ h,
          diffWalkFields_self shape _ path h]
    | date t =>
      simp only [diffWalk]
      simp [JsValue.isUndef, jsTruthy, diffWalkFields_self shape _ path h]
    | arr xs =>
      simp only [diffWalk]
      simp [JsValue.isUndef, jsTruthy, diffWalkFields_self shape _ path h]
    | obj fs =>
      simp only [diffWalk]
      simp [JsValue.isUndef, jsTruthy, diffWalkFields_self shape _ path h]
  | .text o, v, path, h => by
    cases v <;> (simp only [diffWalk]; simp [JsValue.isUndef, deepEqual_refl _ h])
  | .markdown o, v, path, h => by
    cases v <;> (simp only [diffWalk]; simp [JsValue.isUndef, deepEqual_refl _ h])
  | .number o, v, path, h => by
    cases v <;> (simp only [diffWalk]; simp [JsValue.isUndef, deepEqual_refl _ h])
  | .boolean o, v, path, h => by
    cases v <;> (simp only [diffWalk]; simp [JsValue.isUndef, deepEqual_refl _ h])
  | .date o, v, path, h => by
    cases v <;> (simp only [diffWalk]; simp [JsValue.isUndef, deepEqual_refl _ h])
  | .enum vals o, v, path, h => by
    cases v <;> (simp only [diffWalk]; simp [JsValue.isUndef, deepEqual_refl _ h])
  | .entity e o, v, path, h => by
    cases v <;> (simp only [diffWalk]; simp [JsValue.isUndef, deepEqual_refl _ h])
termination_by f => (sizeOf f, 0)

theorem diffWalkFields_self : ∀ (shape : Defn) (v : JsValue) (path : String),
    wfValue v = true → diffWalkFields shape v v path = {}
  | [], _, _, _ => by simp only [diffWalkFields]
  | (k, nf) :: rest, v, path, h => by
    simp only [diffWalkFields]
    rw [diffWalk_self nf (jsGetProp v k) (joinPath path k) (wf_jsGetProp h k)]
    rw [diffWalkFields_self rest v path h]
    rfl
termination_by shape => (sizeOf shape, 1)

end



theorem C9_diff_self (d : Defn) (x : List (String × JsValue)) (hx : wfFields x = true) :
    diffSchemaData d x x = {} := by
  induction d with
  | nil => rfl
  | cons kf rest ih =>
    obtain ⟨k, f⟩ := kf
    rw [diffSchemaData]
    rw [diffWalk_self f (jsGet x k) k (wf_jsGet (fun kv hm => wfFields_mem hx hm) k)]
    rw [ih]
    rfl

theorem C9_diff_self_witness :
    wfFields [("a", JsValue.str "hi")] = true ∧
      diffSchemaData [("a", Field.text {})] [("a", .str "hi")] [("a", .str "hi")] = {} :=
  ⟨by simp [wfFields, wfValue], C9_diff_self _ _ (by simp [wfFields, wfValue])⟩

end LlmSchema

namespace LlmSchema

mutual

/-- Every default-value producer reachable from the field resolves (never
throws): the well-configured-schema condition. -/
def goodDefaultsF (sp : String → Option ℤ) : Field → Bool
  | .array _ item => goodDefaultsD sp item
  | .object _ shape => goodDefaultsD sp shape
  | f =>
    match fieldDefaultValue sp f with
    | some (.error _) => false
    | _ => true
termination_by f => (sizeOf f, 0)

def goodDefaultsD (sp : String → Option ℤ) (d : Defn) : Bool :=
  match d with
  | [] => true
  | (_, f) :: rest => goodDefaultsF sp f && goodDefaultsD sp rest
termination_by (sizeOf d, 1)

end

theorem goodDefaultsF_no_error {sp : String → Option ℤ} {f : Field}
    (h : goodDefaultsF sp f = true) (e : String) :
    fieldDefaultValue sp f ≠ some (.error e) := by
  intro hbad
  cases f with
  | array o item => simp [fieldDefaultValue] at hbad
  | object o shape => simp [fieldDefaultValue] at hbad
  | text o => simp only [goodDefaultsF, hbad] at h; cases h
  | markdown o => simp only [goodDefaultsF, hbad] at h; cases h
  | number o => simp only [goodDefaultsF, hbad] at h; cases h
  | boolean o => simp only [goodDefaultsF, hbad] at h; cases h
  | date o => simp only [goodDefaultsF, hbad] at h; cases h
  | enum vals o => simp only [goodDefaultsF, hbad] at h; cases h
  | entity e o => simp only [goodDefaultsF, hbad] at h; cases h

end LlmSchema

namespace LlmSchema


/-- Reduction of an `Except` bind at a successful scrutinee (used to
unfold the engine's `do`-blocks in proofs). -/
theorem exceptOkBind {α β : Type} (x : α) (f : α → Except String β) :
    (Except.ok x >>= f) = f x := rfl

mutual

/-- A field's `parse` never throws when every reachable default resolves. -/
theorem parseField_noThrow (sp : String → Option ℤ) :
    ∀ (f : Field) (v : JsValue) (p : List String), goodDefaultsF sp f = true →
    ∃ r, parseField sp f v p = .ok r
  | .text o, v, p, _ => ⟨textParse o v p, by simp only [parseField]⟩
  | .markdown o, v, p, _ => ⟨mdParse o v p, by simp only [parseField]⟩
  | .number o, v, p, _ => ⟨numberParse o v p, by simp only [parseField]⟩
  | .boolean o, v, p, _ => ⟨boolParse v p, by simp only [parseField]⟩
  | .date o, v, p, _ => ⟨dateParse sp o v p, by simp only [parseField]⟩
  | .enum vals o, v, p, _ => ⟨enumParse vals v p, by simp only [parseField]⟩
  | .entity e o, v, p, _ => ⟨entityParse v p, by simp only [parseField]⟩
  | .object o shape, v, p, hg => by
    have hg2 : goodDefaultsD sp shape = true := by
      rw [goodDefaultsF] at hg; exact hg
    obtain ⟨r, hr⟩ := parseDefn_noThrow sp shape v p false hg2
    cases r with
    | ok data =>
      exact ⟨.ok (.obj data), by simp only [parseField, hr, exceptOkBind]⟩
    | fail iss =>
      exact ⟨.fail iss, by simp only [parseField, hr, exceptOkBind]⟩
  | .array o item, v, p, hg => by
    have hg2 : goodDefaultsD sp item = true := by
      rw [goodDefaultsF] at hg; exact hg
    cases v with
    | arr xs =>
      obtain ⟨⟨datas, itemIssues⟩, hr⟩ := parseItems_noThrow sp item xs p 0 hg2
      by_cases hiss : (arrayLenIssues o xs.length p ++ itemIssues).isEmpty
      · cases hu : o.uniqueBy with
        | none =>
          exact ⟨.ok (.arr (datas.map (fun r => .obj r))), by
            simp only [parseField, hr, exceptOkBind]
            simp [hu, hiss]⟩
        | some u =>
          cases hscan : uniqueScanAux u [] datas with
          | none =>
            exact ⟨.ok (.arr (datas.map (fun r => .obj r))), by
              simp only [parseField, hr, exceptOkBind]
              simp [hu, hiss, hscan]⟩
          | some dup =>
            refine ⟨.fail [mkIssue p
              ("Array items must be unique by \"" ++ u ++ "\"") .invalid_format
              none (some (.val dup))], by
              simp only [parseField, hr, exceptOkBind]
              simp [hu, hiss, hscan]⟩
      · refine ⟨.fail (arrayLenIssues o xs.length p ++ itemIssues), by
          simp only [parseField, hr, exceptOkBind]
          simp [Bool.eq_false_iff.mpr hiss]⟩
    | undef => exact ⟨_, by simp only [parseField]; rfl⟩
    | null => exact ⟨_, by simp only [parseField]; rfl⟩
    | bool b => exact ⟨_, by simp only [parseField]; rfl⟩
    | nan => exact ⟨_, by simp only [parseField]; rfl⟩
    | num x => exact ⟨_, by simp only [parseField]; rfl⟩
    | str s => exact ⟨_, by simp only [parseField]; rfl⟩
    | date t => exact ⟨_, by simp only [parseField]; rfl⟩
    | obj fs => exact ⟨_, by simp only [parseField]; rfl⟩
termination_by f => (sizeOf f, 0)

theorem parseItems_noThrow (sp : String → Option ℤ) :
    ∀ (item : Defn) (xs : List JsValue) (p : List String) (i : ℕ),
    goodDefaultsD sp item = true →
    ∃ r, parseItems sp item xs p i = .ok r
  | item, [], p, i, _ => ⟨([], []), by simp only [parseItems]⟩
  | item, x :: rest, p, i, hg => by
    obtain ⟨r1, h1⟩ := parseDefn_noThrow sp item x (appendPath p (toString i)) false hg
    obtain ⟨⟨datas, issues⟩, h2⟩ := parseItems_noThrow sp item rest p (i + 1) hg
    cases r1 with
    | ok data =>
      exact ⟨(data :: datas, issues), by simp only [parseItems, h1, h2, exceptOkBind]⟩
    | fail iss =>
      exact ⟨(datas, iss ++ issues), by simp only [parseItems, h1, h2, exceptOkBind]⟩
termination_by item xs => (sizeOf item, xs.length + 3)

theorem parseEntry_noThrow (sp : String → Option ℤ) :
    ∀ (k : String) (f : Field) (record : List (String × JsValue)) (p : List String),
    goodDefaultsF sp f = true →
    ∃ r, parseEntry sp k f record p = .ok r
  | k, f, record, p, hg => by
    by_cases hn : isNullish (jsGet record k)
    · by_cases hopt : fieldOptional f
      · by_cases hdef : fieldHasDefault f
        · cases hdv : fieldDefaultValue sp f with
          | none => exact ⟨([], []), by simp only [parseEntry, hn, hopt, hdef, hdv]; rfl⟩
          | some dr =>
            cases dr with
            | ok w =>
              exact ⟨([(k, w)], []), by simp only [parseEntry, hn, hopt, hdef, hdv]; rfl⟩
            | error e => exact absurd hdv (goodDefaultsF_no_error hg e)
        · refine ⟨([], []), ?_⟩
          simp only [parseEntry, hn, hopt]
          rw [Bool.eq_false_iff.mpr hdef]
          rfl
      · refine ⟨([], [requiredIssue (appendPath p k)]), ?_⟩
        simp only [parseEntry, hn]
        rw [Bool.eq_false_iff.mpr hopt]
        rfl
    · obtain ⟨fr, hfr⟩ := parseField_noThrow sp f (jsGet record k) (appendPath p k) hg
      cases fr with
      | ok w =>
        refine ⟨([(k, w)], []), ?_⟩
        simp only [parseEntry]
        rw [Bool.eq_false_iff.mpr hn]
        simp only [hfr]
        rfl
      | fail iss =>
        refine ⟨([], iss), ?_⟩
        simp only [parseEntry]
        rw [Bool.eq_false_iff.mpr hn]
        simp only [hfr]
        rfl
termination_by k f => (sizeOf f, 2)

theorem parseFieldsLoop_noThrow (sp : String → Option ℤ) :
    ∀ (d : Defn) (record : List (String × JsValue)) (p : List String),
    goodDefaultsD sp d = true →
    ∃ r, parseFieldsLoop sp d record p = .ok r
  | [], record, p, _ => ⟨([], []), by simp only [parseFieldsLoop]⟩
  | (k, f) :: rest, record, p, hg => by
    rw [goodDefaultsD] at hg
    simp only [Bool.and_eq_true] at hg
    obtain ⟨⟨hd, hdIss⟩, h1⟩ := parseEntry_noThrow sp k f record p hg.1
    obtain ⟨⟨tl, tlIss⟩, h2⟩ := parseFieldsLoop_noThrow sp rest record p hg.2
    exact ⟨(hd ++ tl, hdIss ++ tlIss), by simp only [parseFieldsLoop, h1, h2, exceptOkBind]⟩
termination_by d => (sizeOf d, 0)

theorem parseDefn_noThrow (sp : String → Option ℤ) :
    ∀ (d : Defn) (v : JsValue) (p : List String) (strict : Bool),
    goodDefaultsD sp d = true →
    ∃ r, parseDefn sp d v p strict = .ok r
  | d, v, p, strict, hg => by
    rcases he : ensureObject v p with iss | record
    · exact ⟨.fail iss, by simp only [parseDefn, he]⟩
    · obtain ⟨⟨data, issues⟩, h1⟩ := parseFieldsLoop_noThrow sp d record p hg
      by_cases hiss : (issues ++ (if strict then strictIssues record d p else [])).isEmpty
      · exact ⟨.ok data, by simp only [parseDefn, he, h1, exceptOkBind]; simp [hiss]⟩
      · refine ⟨.fail (issues ++ (if strict then strictIssues record d p else [])), ?_⟩
        simp only [parseDefn, he, h1, exceptOkBind]
        simp [Bool.eq_false_iff.mpr hiss]
termination_by d => (sizeOf d, 1)

end

end LlmSchema

namespace LlmSchema

/-- C3 (amended): provided every configured default-value producer in the
definition resolves (`goodDefaultsD`), `safeParse` never throws — it
returns a success or failure result — and `parse` returns the success data
or throws `SchemaError('Failed to parse schema data', issues)` on a failure
result.  Without that proviso a misconfigured date default throws through
`safeParse` (see the counterexample). -/
theorem C3_safeParse_total_amended (jp : String → Option JsValue) (jmsg : String → String)
    (sp : String → Option ℤ) (d : Defn) (opts : SchemaOpts) (input : JsInput)
    (hg : goodDefaultsD sp d = true) :
    ∃ r, safeParse jp jmsg sp d opts input = .ok r ∧
      (∀ data, r = .ok data → parseStrict jp jmsg sp d opts input = .ok data) ∧
      (∀ iss, r = .fail iss →
        parseStrict jp jmsg sp d opts input
          = .error (.schemaError "Failed to parse schema data" iss)) := by
  rcases hn : normalizeInput jp jmsg input with iss | v
  · refine ⟨.fail iss, by simp only [safeParse, hn], ?_, ?_⟩
    · intro data hd; cases hd
    · intro iss2 hi
      injection hi with hi2
      subst hi2
      simp only [parseStrict, safeParse, hn]
  · obtain ⟨r, hr⟩ := parseDefn_noThrow sp d v [] opts.strict hg
    have hsp : safeParse jp jmsg sp d opts input = .ok r := by
      simp only [safeParse, hn, parseRoot, hr]
    refine ⟨r, hsp, ?_, ?_⟩
    · intro data hd
      subst hd
      simp only [parseStrict, hsp]
    · intro iss hi
      subst hi
      simp only [parseStrict, hsp]

theorem C3_safeParse_total_amended_witness :
    goodDefaultsD (fun _ => none) [] = true ∧
    ∃ r, safeParse (fun _ => none) (fun _ => "") (fun _ => none) [] {} (.val (.obj [])) = .ok r ∧
      (∀ data, r = .ok data →
        parseStrict (fun _ => none) (fun _ => "") (fun _ => none) [] {} (.val (.obj []))
          = .ok data) ∧
      (∀ iss, r = .fail iss →
        parseStrict (fun _ => none) (fun _ => "") (fun _ => none) [] {} (.val (.obj []))
          = .error (.schemaError "Failed to parse schema data" iss)) :=
  ⟨by simp only [goodDefaultsD],
   C3_safeParse_total_amended (fun _ => none) (fun _ => "") (fun _ => none) [] {}
     (.val (.obj [])) (by simp only [goodDefaultsD])⟩

/-- C3 counterexample: a date field whose configured default string fails
to parse makes `safeParse` itself throw (`Invalid default date value`),
contradicting "never throws". -/
theorem C3_safeParse_throws_counterexample :
    safeParse (fun _ => none) (fun _ => "") (fun _ => none)
      [("d", Field.date { dflt := some (.str "not-a-date") })] {} (.val (.obj []))
      = .error "Invalid default date value" := by
  simp [safeParse, normalizeInput, parseRoot, parseDefn, parseFieldsLoop, parseEntry,
    fieldOptional, resolveOptional, fieldHasDefault, fieldDefaultValue, determineDate,
    jsGet, isNullish, ensureObject, typeOf]
  rfl

end LlmSchema

namespace LlmSchema

/-- The (never-throwing) outcome of one field-loop iteration: the
assignment (zero or one bindings) and issues it contributes. -/
def entryOut (sp : String → Option ℤ) (k : String) (f : Field)
    (record : List (String × JsValue)) (p : List String) :
    List (String × JsValue) × List ParseIssue :=
  match parseEntry sp k f record p with
  | .ok r => r
  | .error _ => ([], [])

theorem parseEntry_ok {sp : String → Option ℤ} {k : String} {f : Field}
    {record : List (String × JsValue)} {p : List String}
    (hg : goodDefaultsF sp f = true) :
    parseEntry sp k f record p = .ok (entryOut sp k f record p) := by
  obtain ⟨r, hr⟩ := parseEntry_noThrow sp k f record p hg
  simp [entryOut, hr]

/-- The accumulated outcome of the whole field loop. -/
def loopOut (sp : String → Option ℤ) :
    Defn → List (String × JsValue) → List String →
    List (String × JsValue) × List ParseIssue
  | [], _, _ => ([], [])
  | (k, f) :: rest, record, p =>
    let e := entryOut sp k f record p
    let r := loopOut sp rest record p
    (e.1 ++ r.1, e.2 ++ r.2)

theorem parseFieldsLoop_eq {sp : String → Option ℤ} {d : Defn}
    {record : List (String × JsValue)} {p : List String}
    (hg : goodDefaultsD sp d = true) :
    parseFieldsLoop sp d record p = .ok (loopOut sp d record p) := by
  induction d with
  | nil => simp only [parseFieldsLoop, loopOut]
  | cons kf rest ih =>
    obtain ⟨k, f⟩ := kf
    rw [goodDefaultsD] at hg
    simp only [Bool.and_eq_true] at hg
    simp only [parseFieldsLoop, parseEntry_ok hg.1, ih hg.2, exceptOkBind, loopOut]

/-- `parseDefinition` on an object input, fully characterized. -/
theorem parseDefn_obj_eq {sp : String → Option ℤ} {d : Defn}
    {record : List (String × JsValue)} {p : List String} {s : Bool}
    (hg : goodDefaultsD sp d = true) :
    parseDefn sp d (.obj record) p s =
      (if ((loopOut sp d record p).2 ++ (if s then strictIssues record d p else [])).isEmpty
       then .ok (.ok (loopOut sp d record p).1)
       else .ok (.fail
         ((loopOut sp d record p).2 ++ (if s then strictIssues record d p else [])))) := by
  have he : ensureObject (.obj record) p = .ok record := rfl
  simp only [parseDefn, he, parseFieldsLoop_eq hg, exceptOkBind]

end LlmSchema

namespace LlmSchema

theorem textParse_paths {o : TextOpts} {v : JsValue} {p : List String} {iss : List ParseIssue}
    (h : textParse o v p = .fail iss) : ∀ i ∈ iss, i.path = p := by
  cases v <;> simp only [textParse] at h
  all_goals repeat' (split at h)
  all_goals
    first
    | (cases h; intro i hi; simp at hi; subst hi; rfl)
    | cases h

theorem mdParse_paths {o : MdOpts} {v : JsValue} {p : List String} {iss : List ParseIssue}
    (h : mdParse o v p = .fail iss) : ∀ i ∈ iss, i.path = p := by
  cases v <;> simp only [mdParse] at h
  all_goals repeat' (split at h)
  all_goals
    first
    | (cases h; intro i hi; simp at hi; subst hi; rfl)
    | cases h

theorem numberParse_paths {o : NumberOpts} {v : JsValue} {p : List String}
    {iss : List ParseIssue} (h : numberParse o v p = .fail iss) : ∀ i ∈ iss, i.path = p := by
  cases v <;> simp only [numberParse] at h
  all_goals repeat' (split at h)
  all_goals
    first
    | (cases h; intro i hi; simp at hi; subst hi; rfl)
    | cases h

theorem boolParse_paths {v : JsValue} {p : List String} {iss : List ParseIssue}
    (h : boolParse v p = .fail iss) : ∀ i ∈ iss, i.path = p := by
  cases v <;> simp only [boolParse] at h
  all_goals repeat' (split at h)
  all_goals
    first
    | (cases h; intro i hi; simp at hi; subst hi; rfl)
    | cases h

theorem dateParse_paths {sp : String → Option ℤ} {o : DateOpts} {v : JsValue} {p : List String}
    {iss : List ParseIssue} (h : dateParse sp o v p = .fail iss) : ∀ i ∈ iss, i.path = p := by
  simp only [dateParse] at h
  repeat' (split at h)
  all_goals
    first
    | (cases h; intro i hi; simp at hi; subst hi; rfl)
    | cases h

theorem enumParse_paths {vals : List String} {v : JsValue} {p : List String}
    {iss : List ParseIssue} (h : enumParse vals v p = .fail iss) : ∀ i ∈ iss, i.path = p := by
  cases v <;> simp only [enumParse] at h
  all_goals repeat' (split at h)
  all_goals
    first
    | (cases h; intro i hi; simp at hi; subst hi; rfl)
    | cases h

theorem entityParse_paths {v : JsValue} {p : List String} {iss : List ParseIssue}
    (h : entityParse v p = .fail iss) : ∀ i ∈ iss, i.path = p := by
  cases v <;> simp only [entityParse] at h
  all_goals repeat' (split at h)
  all_goals
    first
    | (cases h; intro i hi; simp at hi; subst hi; rfl)
    | cases h

theorem arrayLenIssues_paths {o : ArrayOpts} {len : ℕ} {p : List String} :
    ∀ i ∈ arrayLenIssues o len p, i.path = p := by
  intro i hi
  simp only [arrayLenIssues] at hi
  rw [List.mem_append] at hi
  rcases hi with hi | hi <;>
    (repeat' (split at hi)) <;> simp at hi <;> (subst hi; rfl)

end LlmSchema

namespace LlmSchema

theorem path_extend_trans {i : ParseIssue} {p : List String} {k : String}
    (h : ∃ r, i.path = (p ++ [k]) ++ r) : ∃ r, i.path = p ++ r := by
  obtain ⟨r, hr⟩ := h
  exact ⟨[k] ++ r, by rw [hr, List.append_assoc]⟩

mutual

theorem parseField_paths (sp : String → Option ℤ) :
    ∀ (f : Field) (v : JsValue) (p : List String) (iss : List ParseIssue),
    parseField sp f v p = .ok (.fail iss) → ∀ i ∈ iss, ∃ r, i.path = p ++ r
  | .text o, v, p, iss, h => by
    simp only [parseField] at h
    injection h with h2
    exact fun i hi => ⟨[], by rw [textParse_paths h2 i hi, List.append_nil]⟩
  | .markdown o, v, p, iss, h => by
    simp only [parseField] at h
    injection h with h2
    exact fun i hi => ⟨[], by rw [mdParse_paths h2 i hi, List.append_nil]⟩
  | .number o, v, p, iss, h => by
    simp only [parseField] at h
    injection h with h2
    exact fun i hi => ⟨[], by rw [numberParse_paths h2 i hi, List.append_nil]⟩
  | .boolean o, v, p, iss, h => by
    simp only [parseField] at h
    injection h with h2
    exact fun i hi => ⟨[], by rw [boolParse_paths h2 i hi, List.append_nil]⟩
  | .date o, v, p, iss, h => by
    simp only [parseField] at h
    injection h with h2
    exact fun i hi => ⟨[], by rw [dateParse_paths h2 i hi, List.append_nil]⟩
  | .enum vals o, v, p, iss, h => by
    simp only [parseField] at h
    injection h with h2
    exact fun i hi => ⟨[], by rw [enumParse_paths h2 i hi, List.append_nil]⟩
  | .entity e o, v, p, iss, h => by
    simp only [parseField] at h
    injection h with h2
    exact fun i hi => ⟨[], by rw [entityParse_paths h2 i hi, List.append_nil]⟩
  | .object o shape, v, p, iss, h => by
    simp only [parseField] at h
    rcases hd : parseDefn sp shape v p false with e | r
    · rw [hd] at h
      cases h
    · rw [hd] at h
      simp only [exceptOkBind] at h
      cases r with
      | ok data => cases h
      | fail iss2 =>
        injection h with h2
        injection h2 with h3
        subst h3
        exact parseDefn_paths sp shape v p false _ hd
  | .array o item, v, p, iss, h => by
    cases v with
    | arr xs =>
      simp only [parseField] at h
      rcases hd : parseItems sp item xs p 0 with e | r
      · rw [hd] at h; cases h
      · obtain ⟨datas, itemIssues⟩ := r
        rw [hd] at h
        simp only [exceptOkBind] at h
        by_cases hiss : (arrayLenIssues o xs.length p ++ itemIssues).isEmpty
        · rw [if_pos hiss] at h
          repeat' (split at h)
          all_goals
            first
            | (injection h with h2; injection h2 with h3; subst h3;
               intro i hi; simp at hi; subst hi;
               exact ⟨[], by rw [List.append_nil]; rfl⟩)
            | cases h
        · rw [if_neg hiss] at h
          injection h with h2
          injection h2 with h3
          subst h3
          intro i hi
          rw [List.mem_append] at hi
          rcases hi with hi | hi
          · exact ⟨[], by rw [arrayLenIssues_paths i hi, List.append_nil]⟩
          · exact parseItems_paths sp item xs p 0 itemIssues datas hd i hi
    | undef =>
      simp only [parseField] at h
      injection h with h2; injection h2 with h3; subst h3
      intro i hi
      simp at hi; subst hi
      exact ⟨[], by rw [List.append_nil]; rfl⟩
    | null =>
      simp only [parseField] at h
      injection h with h2; injection h2 with h3; subst h3
      intro i hi
      simp at hi; subst hi
      exact ⟨[], by rw [List.append_nil]; rfl⟩
    | bool b =>
      simp only [parseField] at h
      injection h with h2; injection h2 with h3; subst h3
      intro i hi
      simp at hi; subst hi
      exact ⟨[], by rw [List.append_nil]; rfl⟩
    | nan =>
      simp only [parseField] at h
      injection h with h2; injection h2 with h3; subst h3
      intro i hi
      simp at hi; subst hi
      exact ⟨[], by rw [List.append_nil]; rfl⟩
    | num x =>
      simp only [parseField] at h
      injection h with h2; injection h2 with h3; subst h3
      intro i hi
      simp at hi; subst hi
      exact ⟨[], by rw [List.append_nil]; rfl⟩
    | str s =>
      simp only [parseField] at h
      injection h with h2; injection h2 with h3; subst h3
      intro i hi
      simp at hi; subst hi
      exact ⟨[], by rw [List.append_nil]; rfl⟩
    | date t =>
      simp only [parseField] at h
      injection h with h2; injection h2 with h3; subst h3
      intro i hi
      simp at hi; subst hi
      exact ⟨[], by rw [List.append_nil]; rfl⟩
    | obj fs =>
      simp only [parseField] at h
      injection h with h2; injection h2 with h3; subst h3
      intro i hi
      simp at hi; subst hi
      exact ⟨[], by rw [List.append_nil]; rfl⟩
termination_by f => (sizeOf f, 0)

theorem parseItems_paths (sp : String → Option ℤ) :
    ∀ (item : Defn) (xs : List JsValue) (p : List String) (i : ℕ)
      (iss : List ParseIssue) (datas : List (List (String × JsValue))),
    parseItems sp item xs p i = .ok (datas, iss) → ∀ j ∈ iss, ∃ r, j.path = p ++ r
  | item, [], p, i, iss, datas, h => by
    simp only [parseItems] at h
    injection h with h2
    have hiss : iss = [] := by
      have h3 := congrArg Prod.snd h2
      simpa using h3.symm
    subst hiss
    intro j hj
    cases hj
  | item, x :: rest, p, i, iss, datas, h => by
    simp only [parseItems] at h
    rcases hd : parseDefn sp item x (appendPath p (toString i)) false with e | r
    · rw [hd] at h; cases h
    · rw [hd] at h
      simp only [exceptOkBind] at h
      rcases hrest : parseItems sp item rest p (i + 1) with e2 | r2
      · rw [hrest] at h; cases h
      · obtain ⟨datas2, issues2⟩ := r2
        rw [hrest] at h
        simp only [exceptOkBind] at h
        cases r with
        | ok data =>
          injection h with h2
          have hiss : iss = issues2 := by
            have h3 := congrArg Prod.snd h2
            simpa using h3.symm
          subst hiss
          exact fun j hj => parseItems_paths sp item rest p (i + 1) iss datas2 hrest j hj
        | fail iss2 =>
          injection h with h2
          have hiss : iss = iss2 ++ issues2 := by
            have h3 := congrArg Prod.snd h2
            simpa using h3.symm
          subst hiss
          intro j hj
          rw [List.mem_append] at hj
          rcases hj with hj | hj
          · have h3 := parseDefn_paths sp item x (appendPath p (toString i)) false iss2 hd j hj
            exact path_extend_trans (by simpa [appendPath] using h3)
          · exact parseItems_paths sp item rest p (i + 1) issues2 datas2 hrest j hj
termination_by item xs => (sizeOf item, xs.length + 3)

theorem parseEntry_paths (sp : String → Option ℤ) :
    ∀ (k : String) (f : Field) (record : List (String × JsValue)) (p : List String)
      (out : List (String × JsValue) × List ParseIssue),
    parseEntry sp k f record p = .ok out → ∀ i ∈ out.2, ∃ r, i.path = (p ++ [k]) ++ r
  | k, f, record, p, out, h => by
    simp only [parseEntry] at h
    by_cases hn : isNullish (jsGet record k)
    · rw [if_pos hn] at h
      repeat' (split at h)
      all_goals
        first
        | (injection h with h2; rw [← h2]; intro i hi;
           simp at hi; subst hi;
           exact ⟨[], by rw [List.append_nil]; rfl⟩)
        | (injection h with h2; rw [← h2]; intro i hi; simp at hi)
        | cases h
    · rw [if_neg hn] at h
      rcases hf : parseField sp f (jsGet record k) (appendPath p k) with e | fr
      · rw [hf] at h; cases h
      · rw [hf] at h
        simp only [exceptOkBind] at h
        cases fr with
        | ok w =>
          injection h with h2
          rw [← h2]
          intro i hi
          cases hi
        | fail iss2 =>
          injection h with h2
          rw [← h2]
          intro i hi
          have h3 := parseField_paths sp f (jsGet record k) (appendPath p k) iss2 hf i hi
          simpa [appendPath] using h3
termination_by k f => (sizeOf f, 2)

theorem parseFieldsLoop_paths (sp : String → Option ℤ) :
    ∀ (d : Defn) (record : List (String × JsValue)) (p : List String)
      (data : List (String × JsValue)) (iss : List ParseIssue),
    parseFieldsLoop sp d record p = .ok (data, iss) →
    ∀ i ∈ iss, ∃ kf, kf ∈ d ∧ ∃ r, i.path = (p ++ [kf.fst]) ++ r
  | [], record, p, data, iss, h => by
    simp only [parseFieldsLoop] at h
    injection h with h2
    have hiss : iss = [] := by
      have h3 := congrArg Prod.snd h2
      simpa using h3.symm
    subst hiss
    intro i hi
    cases hi
  | (k, f) :: rest, record, p, data, iss, h => by
    simp only [parseFieldsLoop] at h
    rcases he : parseEntry sp k f record p with e | out
    · rw [he] at h; cases h
    · rw [he] at h
      simp only [exceptOkBind] at h
      rcases hl : parseFieldsLoop sp rest record p with e2 | out2
      · rw [hl] at h; cases h
      · obtain ⟨tl, tlIss⟩ := out2
        rw [hl] at h
        simp only [exceptOkBind] at h
        injection h with h2
        have hiss : iss = out.2 ++ tlIss := by
          have h3 := congrArg Prod.snd h2
          simpa using h3.symm
        subst hiss
        intro i hi
        rw [List.mem_append] at hi
        rcases hi with hi | hi
        · exact ⟨(k, f), by simp, parseEntry_paths sp k f record p out he i hi⟩
        · obtain ⟨kf, hkf, hr⟩ := parseFieldsLoop_paths sp rest record p tl tlIss hl i hi
          exact ⟨kf, List.mem_cons_of_mem _ hkf, hr⟩
termination_by d => (sizeOf d, 0)

theorem parseDefn_paths (sp : String → Option ℤ) :
    ∀ (d : Defn) (v : JsValue) (p : List String) (s : Bool) (iss : List ParseIssue),
    parseDefn sp d v p s = .ok (.fail iss) → ∀ i ∈ iss, ∃ r, i.path = p ++ r
  | d, v, p, s, iss, h => by
    rcases he : ensureObject v p with iss0 | record
    · simp only [parseDefn, he] at h
      injection h with h2
      injection h2 with h3
      subst h3
      cases v <;> simp only [ensureObject] at he <;> cases he <;>
        (intro i hi; simp at hi; subst hi;
         exact ⟨[], by rw [List.append_nil]; rfl⟩)
    · simp only [parseDefn, he] at h
      rcases hl : parseFieldsLoop sp d record p with e | out
      · rw [hl] at h; cases h
      · obtain ⟨data, issues⟩ := out
        rw [hl] at h
        simp only [exceptOkBind] at h
        by_cases hiss : (issues ++ (if s then strictIssues record d p else [])).isEmpty
        · rw [if_pos hiss] at h; cases h
        · rw [if_neg hiss] at h
          injection h with h2
          injection h2 with h3
          subst h3
          intro i hi
          rw [List.mem_append] at hi
          rcases hi with hi | hi
          · obtain ⟨kf, hkf, r, hr⟩ := parseFieldsLoop_paths sp d record p data issues hl i hi
            exact ⟨[kf.fst] ++ r, by rw [hr, List.append_assoc]⟩
          · rcases hs : s with _ | _
            · rw [hs] at hi
              simp at hi
            · rw [hs] at hi
              simp only [if_pos] at hi
              simp only [strictIssues, List.mem_filterMap] at hi
              obtain ⟨kv, hkv, hite⟩ := hi
              by_cases hkm : keyMem kv.fst d
              · rw [if_pos (by simp [hkm])] at hite
                cases hite
              · rw [if_neg (by simp [hkm])] at hite
                injection hite with hite2
                rw [← hite2]
                exact ⟨[kv.fst], rfl⟩
termination_by d => (sizeOf d, 1)

end

end LlmSchema

namespace LlmSchema

/-- A `required`-coded issue sitting exactly at field `k` under prefix `p`. -/
def isRequiredAt (p : List String) (k : String) (i : ParseIssue) : Bool :=
  (i.path == appendPath p k) && (i.code == IssueCode.required)

theorem path_ne_sibling {p : List String} {k k' : String} {r : List String}
    (hne : k' ≠ k) : (p ++ [k']) ++ r ≠ p ++ [k] := by
  intro h
  cases r with
  | nil =>
    rw [List.append_nil] at h
    exact hne (by simpa using List.append_cancel_left h)
  | cons a rest =>
    have hlen := congrArg List.length h
    simp [List.length_append] at hlen

theorem entryOut_required {sp : String → Option ℤ} {k : String} {f : Field}
    {record : List (String × JsValue)} {p : List String}
    (hnull : isNullish (jsGet record k) = true)
    (hreq : fieldOptional f = false) :
    entryOut sp k f record p = ([], [requiredIssue (appendPath p k)]) := by
  simp only [entryOut, parseEntry, hnull, hreq, if_true, if_false, Bool.false_eq_true]

theorem entryOut_paths {sp : String → Option ℤ} {k : String} {f : Field}
    {record : List (String × JsValue)} {p : List String}
    (hg : goodDefaultsF sp f = true) :
    ∀ i ∈ (entryOut sp k f record p).2, ∃ r, i.path = (p ++ [k]) ++ r :=
  parseEntry_paths sp k f record p _ (parseEntry_ok hg)

theorem loopOut_count_zero {sp : String → Option ℤ} {d : Defn}
    {record : List (String × JsValue)} {p : List String} {k : String}
    (hg : goodDefaultsD sp d = true)
    (hnk : k ∉ d.map Prod.fst) :
    (loopOut sp d record p).2.countP (isRequiredAt p k) = 0 := by
  rw [List.countP_eq_zero]
  intro i hi
  obtain ⟨kf, hkf, r, hr⟩ :=
    parseFieldsLoop_paths sp d record p _ _ (parseFieldsLoop_eq hg) i hi
  have hne : kf.fst ≠ k := fun he => hnk (he ▸ List.mem_map_of_mem Prod.fst hkf)
  simp only [isRequiredAt, appendPath, Bool.and_eq_true, beq_iff_eq, not_and]
  intro hp
  exact absurd (hr ▸ hp) (path_ne_sibling hne)

theorem loopOut_required_count {sp : String → Option ℤ} {d : Defn}
    {record : List (String × JsValue)} {p : List String} {k : String} {f : Field}
    (hg : goodDefaultsD sp d = true)
    (hnd : (d.map Prod.fst).Nodup)
    (hmem : (k, f) ∈ d)
    (hnull : isNullish (jsGet record k) = true)
    (hreq : fieldOptional f = false) :
    (loopOut sp d record p).2.countP (isRequiredAt p k) = 1 := by
  induction d with
  | nil => cases hmem
  | cons kf rest ih =>
    obtain ⟨k1, f1⟩ := kf
    rw [goodDefaultsD] at hg
    simp only [Bool.and_eq_true] at hg
    simp only [List.map_cons] at hnd
    rcases List.mem_cons.mp hmem with heq | hm
    · cases heq
      simp only [loopOut, List.countP_append,
        entryOut_required hnull hreq]
      have h0 : (loopOut sp rest record p).2.countP (isRequiredAt p k) = 0 :=
        loopOut_count_zero hg.2 (List.nodup_cons.mp hnd).1
      rw [h0]
      simp [isRequiredAt, requiredIssue, mkIssue, List.countP_cons]
    · have hk : k ∈ rest.map Prod.fst := List.mem_map_of_mem Prod.fst hm
      have hne : k ≠ k1 := fun he => (List.nodup_cons.mp hnd).1 (he ▸ hk)
      simp only [loopOut, List.countP_append]
      have h0 : (entryOut sp k1 f1 record p).2.countP (isRequiredAt p k) = 0 := by
        rw [List.countP_eq_zero]
        intro i hi
        obtain ⟨r, hr⟩ := entryOut_paths hg.1 i hi
        simp only [isRequiredAt, appendPath, Bool.and_eq_true, beq_iff_eq, not_and]
        intro hp
        exact absurd (hr ▸ hp) (path_ne_sibling (Ne.symm hne))
      rw [h0, ih hg.2 (List.nodup_cons.mp hnd).2 hm]

theorem loopOut_mem_of_entry {sp : String → Option ℤ} {d : Defn}
    {record : List (String × JsValue)} {p : List String} {k' : String} {f' : Field}
    (hmem : (k', f') ∈ d) :
    ∀ i ∈ (entryOut sp k' f' record p).2, i ∈ (loopOut sp d record p).2 := by
  induction d with
  | nil => cases hmem
  | cons kf rest ih =>
    intro i hi
    simp only [loopOut]
    rw [List.mem_append]
    rcases List.mem_cons.mp hmem with heq | hm
    · obtain ⟨k1, f1⟩ := kf
      cases heq
      exact Or.inl hi
    · exact Or.inr (ih hm i hi)

theorem strictIssues_count_required {record : List (String × JsValue)} {d : Defn}
    {p : List String} {k : String} :
    (strictIssues record d p).countP (isRequiredAt p k) = 0 := by
  rw [List.countP_eq_zero]
  intro i hi
  simp only [strictIssues, List.mem_filterMap] at hi
  obtain ⟨kv, _, hite⟩ := hi
  split at hite
  · cases hite
  · injection hite with h2
    rw [← h2]
    simp [isRequiredAt, mkIssue]

/-- C1: on an object input missing a required field (nullish value, not
optional), `safeParse` fails with exactly one `required`-coded issue at that
field's path, and — collect-don't-short-circuit — every sibling field's
issues from the same pass appear in the same result. -/
theorem C1_required_field_collects
    (jp : String → Option JsValue) (jmsg : String → String) (sp : String → Option ℤ)
    (d : Defn) (opts : SchemaOpts) (record : List (String × JsValue))
    (k : String) (f : Field)
    (hg : goodDefaultsD sp d = true)
    (hnd : (d.map Prod.fst).Nodup)
    (hmem : (k, f) ∈ d)
    (hnull : isNullish (jsGet record k) = true)
    (hreq : fieldOptional f = false) :
    ∃ iss, safeParse jp jmsg sp d opts (.val (.obj record)) = .ok (.fail iss) ∧
      iss.countP (isRequiredAt [] k) = 1 ∧
      ∀ k' f', (k', f') ∈ d →
        ∀ i ∈ (entryOut sp k' f' record []).2, i ∈ iss := by
  have hsp : safeParse jp jmsg sp d opts (.val (.obj record)) =
      parseDefn sp d (.obj record) [] opts.strict := rfl
  have hcount1 : (loopOut sp d record []).2.countP (isRequiredAt [] k) = 1 :=
    loopOut_required_count hg hnd hmem hnull hreq
  have hcount0 :
      (if opts.strict then strictIssues record d [] else []).countP (isRequiredAt [] k) = 0 := by
    cases opts.strict
    · simp
    · simpa using strictIssues_count_required
  have hally :
      ((loopOut sp d record []).2 ++
        (if opts.strict then strictIssues record d [] else [])).countP (isRequiredAt [] k)
        = 1 := by
    rw [List.countP_append, hcount1, hcount0]
  have hne :
      ¬(((loopOut sp d record []).2 ++
        (if opts.strict then strictIssues record d [] else [])).isEmpty = true) := by
    intro hemp
    rw [List.isEmpty_iff] at hemp
    rw [hemp] at hally
    simp at hally
  refine ⟨(loopOut sp d record []).2 ++
      (if opts.strict then strictIssues record d [] else []), ?_, hally, ?_⟩
  · rw [hsp, parseDefn_obj_eq hg, if_neg hne]
  · intro k' f' hmem' i hi
    exact List.mem_append_left _ (loopOut_mem_of_entry hmem' i hi)

theorem C1_required_field_collects_witness :
    (goodDefaultsD (fun _ => none) [("a", Field.text {}), ("b", Field.text {})] = true) ∧
    (([("a", Field.text {}), ("b", Field.text {})].map
        (Prod.fst (α := String) (β := Field))).Nodup) ∧
    (("a", Field.text {}) ∈ [("a", Field.text {}), ("b", Field.text {})]) ∧
    (isNullish (jsGet [] "a") = true) ∧
    (fieldOptional (Field.text {}) = false) ∧
    (∃ iss, safeParse (fun _ => none) (fun _ => "") (fun _ => none)
        [("a", Field.text {}), ("b", Field.text {})] {} (.val (.obj [])) = .ok (.fail iss) ∧
      iss.countP (isRequiredAt [] "a") = 1 ∧
      ∀ k' f', (k', f') ∈ [("a", Field.text {}), ("b", Field.text {})] →
        ∀ i ∈ (entryOut (fun _ => none) k' f' [] []).2, i ∈ iss) :=
  have h1 : goodDefaultsD (fun _ => none) [("a", Field.text {}), ("b", Field.text {})] = true := by
    simp only [goodDefaultsD, goodDefaultsF]
    rfl
  have h2 : ([("a", Field.text {}), ("b", Field.text {})].map
      (Prod.fst (α := String) (β := Field))).Nodup := by
    simp
  have h3 : ("a", Field.text {}) ∈ [("a", Field.text {}), ("b", Field.text {})] := by simp
  have h4 : isNullish (jsGet [] "a") = true := rfl
  have h5 : fieldOptional (Field.text {}) = false := rfl
  ⟨h1, h2, h3, h4, h5,
    C1_required_field_collects (fun _ => none) (fun _ => "") (fun _ => none)
      [("a", Field.text {}), ("b", Field.text {})] {} [] "a" (Field.text {})
      h1 h2 h3 h4 h5⟩

end LlmSchema

namespace LlmSchema

theorem append_ne_unexpected {a : String} (b : String) (h : 16 < a.length) :
    a ++ b ≠ "Unexpected field" := by
  intro he
  have hl := congrArg String.length he
  simp only [String.length_append] at hl
  have h3 : ("Unexpected field" : String).length = 16 := rfl
  omega

theorem append3_ne_unexpected (a b c : String) (h : 16 < a.length) :
    a ++ b ++ c ≠ "Unexpected field" :=
  append_ne_unexpected c (by simp only [String.length_append]; omega)

theorem textParse_msgs {o : TextOpts} {v : JsValue} {p : List String} {iss : List ParseIssue}
    (h : textParse o v p = .fail iss) : ∀ i ∈ iss, i.message ≠ "Unexpected field" := by
  cases v <;> simp only [textParse] at h
  all_goals repeat' (split at h)
  all_goals
    first
    | (cases h; intro i hi; simp at hi; subst hi; simp only [mkIssue];
       first
       | decide
       | (exact append_ne_unexpected _ (by decide))
       | (exact append3_ne_unexpected _ _ _ (by decide)))
    | cases h

theorem mdParse_msgs {o : MdOpts} {v : JsValue} {p : List String} {iss : List ParseIssue}
    (h : mdParse o v p = .fail iss) : ∀ i ∈ iss, i.message ≠ "Unexpected field" := by
  cases v <;> simp only [mdParse] at h
  all_goals repeat' (split at h)
  all_goals
    first
    | (cases h; intro i hi; simp at hi; subst hi; simp only [mkIssue];
       first
       | decide
       | (exact append_ne_unexpected _ (by decide))
       | (exact append3_ne_unexpected _ _ _ (by decide)))
    | cases h

theorem numberParse_msgs {o : NumberOpts} {v : JsValue} {p : List String}
    {iss : List ParseIssue} (h : numberParse o v p = .fail iss) :
    ∀ i ∈ iss, i.message ≠ "Unexpected field" := by
  cases v <;> simp only [numberParse] at h
  all_goals repeat' (split at h)
  all_goals
    first
    | (cases h; intro i hi; simp at hi; subst hi; simp only [mkIssue];
       first
       | decide
       | (exact append_ne_unexpected _ (by decide))
       | (exact append3_ne_unexpected _ _ _ (by decide)))
    | cases h

theorem boolParse_msgs {v : JsValue} {p : List String} {iss : List ParseIssue}
    (h : boolParse v p = .fail iss) : ∀ i ∈ iss, i.message ≠ "Unexpected field" := by
  cases v <;> simp only [boolParse] at h
  all_goals repeat' (split at h)
  all_goals
    first
    | (cases h; intro i hi; simp at hi; subst hi; simp only [mkIssue]; decide)
    | cases h

theorem dateParse_msgs {sp : String → Option ℤ} {o : DateOpts} {v : JsValue} {p : List String}
    {iss : List ParseIssue} (h : dateParse sp o v p = .fail iss) :
    ∀ i ∈ iss, i.message ≠ "Unexpected field" := by
  simp only [dateParse] at h
  repeat' (split at h)
  all_goals
    first
    | (cases h; intro i hi; simp at hi; subst hi; simp only [mkIssue]; decide)
    | cases h

theorem enumParse_msgs {vals : List String} {v : JsValue} {p : List String}
    {iss : List ParseIssue} (h : enumParse vals v p = .fail iss) :
    ∀ i ∈ iss, i.message ≠ "Unexpected field" := by
  cases v <;> simp only [enumParse] at h
  all_goals repeat' (split at h)
  all_goals
    first
    | (cases h; intro i hi; simp at hi; subst hi; simp only [mkIssue];
       first
       | decide
       | (exact append_ne_unexpected _ (by decide))
       | (exact append3_ne_unexpected _ _ _ (by decide)))
    | cases h

theorem entityParse_msgs {v : JsValue} {p : List String} {iss : List ParseIssue}
    (h : entityParse v p = .fail iss) : ∀ i ∈ iss, i.message ≠ "Unexpected field" := by
  cases v <;> simp only [entityParse] at h
  all_goals repeat' (split at h)
  all_goals
    first
    | (cases h; intro i hi; simp at hi; subst hi; simp only [mkIssue]; decide)
    | cases h

theorem arrayLenIssues_msgs {o : ArrayOpts} {len : ℕ} {p : List String} :
    ∀ i ∈ arrayLenIssues o len p, i.message ≠ "Unexpected field" := by
  intro i hi
  simp only [arrayLenIssues] at hi
  rw [List.mem_append] at hi
  rcases hi with hi | hi <;>
    (repeat' (split at hi)) <;> simp at hi <;>
    (subst hi; simp only [mkIssue]; exact append3_ne_unexpected _ _ _ (by decide))

end LlmSchema

namespace LlmSchema

mutual

theorem parseField_noUnexpected (sp : String → Option ℤ) :
    ∀ (f : Field) (v : JsValue) (p : List String) (iss : List ParseIssue),
    parseField sp f v p = .ok (.fail iss) → ∀ i ∈ iss, i.message ≠ "Unexpected field"
  | .text o, v, p, iss, h => by
    simp only [parseField] at h
    injection h with h2
    exact fun i hi => textParse_msgs h2 i hi
  | .markdown o, v, p, iss, h => by
    simp only [parseField] at h
    injection h with h2
    exact fun i hi => mdParse_msgs h2 i hi
  | .number o, v, p, iss, h => by
    simp only [parseField] at h
    injection h with h2
    exact fun i hi => numberParse_msgs h2 i hi
  | .boolean o, v, p, iss, h => by
    simp only [parseField] at h
    injection h with h2
    exact fun i hi => boolParse_msgs h2 i hi
  | .date o, v, p, iss, h => by
    simp only [parseField] at h
    injection h with h2
    exact fun i hi => dateParse_msgs h2 i hi
  | .enum vals o, v, p, iss, h => by
    simp only [parseField] at h
    injection h with h2
    exact fun i hi => enumParse_msgs h2 i hi
  | .entity e o, v, p, iss, h => by
    simp only [parseField] at h
    injection h with h2
    exact fun i hi => entityParse_msgs h2 i hi
  | .object o shape, v, p, iss, h => by
    simp only [parseField] at h
    rcases hd : parseDefn sp shape v p false with e | r
    · rw [hd] at h
      cases h
    · rw [hd] at h
      simp only [exceptOkBind] at h
      cases r with
      | ok data => cases h
      | fail iss2 =>
        injection h with h2
        injection h2 with h3
        subst h3
        exact parseDefn_noUnexpected sp shape v p _ hd
  | .array o item, v, p, iss, h => by
    cases v with
    | arr xs =>
      simp only [parseField] at h
      rcases hd : parseItems sp item xs p 0 with e | r
      · rw [hd] at h; cases h
      · obtain ⟨datas, itemIssues⟩ := r
        rw [hd] at h
        simp only [exceptOkBind] at h
        by_cases hiss : (arrayLenIssues o xs.length p ++ itemIssues).isEmpty
        · rw [if_pos hiss] at h
          repeat' (split at h)
          all_goals
            first
            | (injection h with h2; injection h2 with h3; subst h3;
               intro i hi; simp at hi; subst hi; simp only [mkIssue];
               exact append3_ne_unexpected _ _ _ (by decide))
            | cases h
        · rw [if_neg hiss] at h
          injection h with h2
          injection h2 with h3
          subst h3
          intro i hi
          rw [List.mem_append] at hi
          rcases hi with hi | hi
          · exact arrayLenIssues_msgs i hi
          · exact parseItems_noUnexpected sp item xs p 0 itemIssues datas hd i hi
    | undef =>
      simp only [parseField] at h
      injection h with h2; injection h2 with h3; subst h3
      intro i hi
      simp at hi; subst hi
      simp only [mkIssue]; decide
    | null =>
      simp only [parseField] at h
      injection h with h2; injection h2 with h3; subst h3
      intro i hi
      simp at hi; subst hi
      simp only [mkIssue]; decide
    | bool b =>
      simp only [parseField] at h
      injection h with h2; injection h2 with h3; subst h3
      intro i hi
      simp at hi; subst hi
      simp only [mkIssue]; decide
    | nan =>
      simp only [parseField] at h
      injection h with h2; injection h2 with h3; subst h3
      intro i hi
      simp at hi; subst hi
      simp only [mkIssue]; decide
    | num x =>
      simp only [parseField] at h
      injection h with h2; injection h2 with h3; subst h3
      intro i hi
      simp at hi; subst hi
      simp only [mkIssue]; decide
    | str s =>
      simp only [parseField] at h
      injection h with h2; injection h2 with h3; subst h3
      intro i hi
      simp at hi; subst hi
      simp only [mkIssue]; decide
    | date t =>
      simp only [parseField] at h
      injection h with h2; injection h2 with h3; subst h3
      intro i hi
      simp at hi; subst hi
      simp only [mkIssue]; decide
    | obj fs =>
      simp only [parseField] at h
      injection h with h2; injection h2 with h3; subst h3
      intro i hi
      simp at hi; subst hi
      simp only [mkIssue]; decide
termination_by f => (sizeOf f, 0)

theorem parseItems_noUnexpected (sp : String → Option ℤ) :
    ∀ (item : Defn) (xs : List JsValue) (p : List String) (i : ℕ)
      (iss : List ParseIssue) (datas : List (List (String × JsValue))),
    parseItems sp item xs p i = .ok (datas, iss) →
    ∀ j ∈ iss, j.message ≠ "Unexpected field"
  | item, [], p, i, iss, datas, h => by
    simp only [parseItems] at h
    injection h with h2
    have hiss : iss = [] := by
      have h3 := congrArg Prod.snd h2
      simpa using h3.symm
    subst hiss
    intro j hj
    cases hj
  | item, x :: rest, p, i, iss, datas, h => by
    simp only [parseItems] at h
    rcases hd : parseDefn sp item x (appendPath p (toString i)) false with e | r
    · rw [hd] at h; cases h
    · rw [hd] at h
      simp only [exceptOkBind] at h
      rcases hrest : parseItems sp item rest p (i + 1) with e2 | r2
      · rw [hrest] at h; cases h
      · obtain ⟨datas2, issues2⟩ := r2
        rw [hrest] at h
        simp only [exceptOkBind] at h
        cases r with
        | ok data =>
          injection h with h2
          have hiss : iss = issues2 := by
            have h3 := congrArg Prod.snd h2
            simpa using h3.symm
          subst hiss
          exact fun j hj =>
            parseItems_noUnexpected sp item rest p (i + 1) iss datas2 hrest j hj
        | fail iss2 =>
          injection h with h2
          have hiss : iss = iss2 ++ issues2 := by
            have h3 := congrArg Prod.snd h2
            simpa using h3.symm
          subst hiss
          intro j hj
          rw [List.mem_append] at hj
          rcases hj with hj | hj
          · exact parseDefn_noUnexpected sp item x (appendPath p (toString i)) iss2 hd j hj
          · exact parseItems_noUnexpected sp item rest p (i + 1) issues2 datas2 hrest j hj
termination_by item xs => (sizeOf item, xs.length + 3)

theorem parseEntry_noUnexpected (sp : String → Option ℤ) :
    ∀ (k : String) (f : Field) (record : List (String × JsValue)) (p : List String)
      (out : List (String × JsValue) × List ParseIssue),
    parseEntry sp k f record p = .ok out → ∀ i ∈ out.2, i.message ≠ "Unexpected field"
  | k, f, record, p, out, h => by
    simp only [parseEntry] at h
    by_cases hn : isNullish (jsGet record k)
    · rw [if_pos hn] at h
      repeat' (split at h)
      all_goals
        first
        | (injection h with h2; rw [← h2]; intro i hi;
           simp at hi; subst hi;
           simp only [requiredIssue, mkIssue]; decide)
        | (injection h with h2; rw [← h2]; intro i hi; simp at hi)
        | cases h
    · rw [if_neg hn] at h
      rcases hf : parseField sp f (jsGet record k) (appendPath p k) with e | fr
      · rw [hf] at h; cases h
      · rw [hf] at h
        simp only [exceptOkBind] at h
        cases fr with
        | ok w =>
          injection h with h2
          rw [← h2]
          intro i hi
          cases hi
        | fail iss2 =>
          injection h with h2
          rw [← h2]
          intro i hi
          exact parseField_noUnexpected sp f (jsGet record k) (appendPath p k) iss2 hf i hi
termination_by k f => (sizeOf f, 2)

theorem parseFieldsLoop_noUnexpected (sp : String → Option ℤ) :
    ∀ (d : Defn) (record : List (String × JsValue)) (p : List String)
      (data : List (String × JsValue)) (iss : List ParseIssue),
    parseFieldsLoop sp d record p = .ok (data, iss) →
    ∀ i ∈ iss, i.message ≠ "Unexpected field"
  | [], record, p, data, iss, h => by
    simp only [parseFieldsLoop] at h
    injection h with h2
    have hiss : iss = [] := by
      have h3 := congrArg Prod.snd h2
      simpa using h3.symm
    subst hiss
    intro i hi
    cases hi
  | (k, f) :: rest, record, p, data, iss, h => by
    simp only [parseFieldsLoop] at h
    rcases he : parseEntry sp k f record p with e | out
    · rw [he] at h; cases h
    · rw [he] at h
      simp only [exceptOkBind] at h
      rcases hl : parseFieldsLoop sp rest record p with e2 | out2
      · rw [hl] at h; cases h
      · obtain ⟨tl, tlIss⟩ := out2
        rw [hl] at h
        simp only [exceptOkBind] at h
        injection h with h2
        have hiss : iss = out.2 ++ tlIss := by
          have h3 := congrArg Prod.snd h2
          simpa using h3.symm
        subst hiss
        intro i hi
        rw [List.mem_append] at hi
        rcases hi with hi | hi
        · exact parseEntry_noUnexpected sp k f record p out he i hi
        · exact parseFieldsLoop_noUnexpected sp rest record p tl tlIss hl i hi
termination_by d => (sizeOf d, 0)

theorem parseDefn_noUnexpected (sp : String → Option ℤ) :
    ∀ (d : Defn) (v : JsValue) (p : List String) (iss : List ParseIssue),
    parseDefn sp d v p false = .ok (.fail iss) → ∀ i ∈ iss, i.message ≠ "Unexpected field"
  | d, v, p, iss, h => by
    rcases he : ensureObject v p with iss0 | record
    · simp only [parseDefn, he] at h
      injection h with h2
      injection h2 with h3
      subst h3
      cases v <;> simp only [ensureObject] at he <;> cases he <;>
        (intro i hi; simp at hi; subst hi; simp only [mkIssue]; decide)
    · simp only [parseDefn, he] at h
      rcases hl : parseFieldsLoop sp d record p with e | out
      · rw [hl] at h; cases h
      · obtain ⟨data, issues⟩ := out
        rw [hl] at h
        simp only [exceptOkBind, if_false, List.append_nil, Bool.false_eq_true] at h
        by_cases hiss : issues.isEmpty
        · rw [if_pos hiss] at h; cases h
        · rw [if_neg hiss] at h
          injection h with h2
          injection h2 with h3
          subst h3
          exact parseFieldsLoop_noUnexpected sp d record p data issues hl
termination_by d => (sizeOf d, 1)

end

end LlmSchema

namespace LlmSchema

theorem strictIssues_filter_self {record : List (String × JsValue)} {d : Defn}
    {p : List String} :
    (strictIssues record d p).filter (fun i => i.message == "Unexpected field") =
      strictIssues record d p := by
  rw [List.filter_eq_self]
  intro i hi
  simp only [strictIssues, List.mem_filterMap] at hi
  obtain ⟨kv, _, hite⟩ := hi
  split at hite
  · cases hite
  · injection hite with h2
    rw [← h2]
    simp [mkIssue]

theorem loopOut_filter_nil {sp : String → Option ℤ} {d : Defn}
    {record : List (String × JsValue)} {p : List String}
    (hg : goodDefaultsD sp d = true) :
    (loopOut sp d record p).2.filter (fun i => i.message == "Unexpected field") = [] := by
  rw [List.filter_eq_nil_iff]
  intro i hi
  have h3 := parseFieldsLoop_noUnexpected sp d record p _ _ (parseFieldsLoop_eq hg) i hi
  simpa using h3

/-- C5 (amended): strict mode applies at the ROOT object only.  In any
failing `safeParse` result the `Unexpected field` issues are exactly the
root-level `strictIssues` — one `invalid_type` issue at `[key]` per raw
root key absent from the definition when `strict` is on, none when it is
off — and a succeeding strict parse certifies the root had no unknown keys.
Unknown keys in nested object-field or array-item inputs are never
reported: the nested `parseDefinition` calls drop the strict flag. -/
theorem C5_strict_root_only
    (jp : String → Option JsValue) (jmsg : String → String) (sp : String → Option ℤ)
    (d : Defn) (record : List (String × JsValue)) (s : Bool)
    (hg : goodDefaultsD sp d = true) :
    (∀ iss, safeParse jp jmsg sp d { strict := s } (.val (.obj record)) = .ok (.fail iss) →
      iss.filter (fun i => i.message == "Unexpected field") =
        (if s then strictIssues record d [] else [])) ∧
    (∀ data, safeParse jp jmsg sp d { strict := s } (.val (.obj record)) = .ok (.ok data) →
      s = true → strictIssues record d [] = []) := by
  have hsp : safeParse jp jmsg sp d { strict := s } (.val (.obj record)) =
      parseDefn sp d (.obj record) [] s := rfl
  rw [hsp, parseDefn_obj_eq hg]
  by_cases hiss : ((loopOut sp d record []).2 ++
      (if s then strictIssues record d [] else [])).isEmpty
  · rw [if_pos hiss]
    constructor
    · intro iss h
      cases h
    · intro data _ hs
      subst hs
      rw [List.isEmpty_iff, List.append_eq_nil] at hiss
      simpa using hiss.2
  · rw [if_neg hiss]
    constructor
    · intro iss h
      injection h with h2
      injection h2 with h3
      subst h3
      rw [List.filter_append, loopOut_filter_nil hg, List.nil_append]
      cases s
      · simp
      · simpa using strictIssues_filter_self
    · intro data h
      cases h

theorem C5_strict_root_only_witness :
    (goodDefaultsD (fun _ => none) [("a", Field.text {})] = true) ∧
    ((∀ iss, safeParse (fun _ => none) (fun _ => "") (fun _ => none)
        [("a", Field.text {})] { strict := true }
        (.val (.obj [("zzz", .bool true)])) = .ok (.fail iss) →
      iss.filter (fun i => i.message == "Unexpected field") =
        (if true then strictIssues [("zzz", .bool true)] [("a", Field.text {})] [] else [])) ∧
    (∀ data, safeParse (fun _ => none) (fun _ => "") (fun _ => none)
        [("a", Field.text {})] { strict := true }
        (.val (.obj [("zzz", .bool true)])) = .ok (.ok data) →
      true = true → strictIssues [("zzz", .bool true)] [("a", Field.text {})] [] = [])) :=
  have h1 : goodDefaultsD (fun _ => none) [("a", Field.text {})] = true := by
    simp only [goodDefaultsD, goodDefaultsF]
    rfl
  ⟨h1, C5_strict_root_only (fun _ => none) (fun _ => "") (fun _ => none)
    [("a", Field.text {})] [("zzz", .bool true)] true h1⟩

/-- C5 counterexample: with `strict: true`, an unknown key inside a nested
object-field input produces NO issue — the nested `parseDefinition` call in
`object(...)`'s parse omits the options argument, dropping the strict flag —
so `safeParse` succeeds, contradicting the claim's "including inside nested
object-field and array-item inputs". -/
theorem C5_nested_strict_counterexample :
    safeParse (fun _ => none) (fun _ => "") (fun _ => none)
      [("o", Field.object {} [("a", Field.text {})])] { strict := true }
      (.val (.obj [("o", .obj [("a", .str "x"), ("zzz", .bool true)])])) =
      .ok (.ok [("o", .obj [("a", .str "x")])]) := by
  simp [safeParse, normalizeInput, parseRoot, parseDefn, parseFieldsLoop, parseEntry,
    parseField, textParse, fieldOptional, resolveOptional, fieldHasDefault,
    jsGet, isNullish, ensureObject, typeOf, strictIssues, keyMem, appendPath, mkIssue]
  rfl

end LlmSchema

namespace LlmSchema

theorem fieldHasDefault_of_default {sp : String → Option ℤ} {f : Field}
    {r : Except String JsValue}
    (h : fieldDefaultValue sp f = some r) : fieldHasDefault f = true := by
  cases f <;> simp only [fieldDefaultValue, fieldHasDefault] at h ⊢
  all_goals
    first
    | cases h
    | (rcases Option.map_eq_some'.mp h with ⟨a, ha, _⟩; simp [ha])

theorem parseEntry_default {sp : String → Option ℤ} {k : String} {f : Field}
    {record : List (String × JsValue)} {p : List String} {w : JsValue}
    (hn : isNullish (jsGet record k) = true)
    (hopt : fieldOptional f = true)
    (hdv : fieldDefaultValue sp f = some (.ok w)) :
    parseEntry sp k f record p = .ok ([(k, w)], []) := by
  simp only [parseEntry, hn, hopt, fieldHasDefault_of_default hdv, hdv, if_true]

theorem entryOut_default {sp : String → Option ℤ} {k : String} {f : Field}
    {record : List (String × JsValue)} {p : List String} {w : JsValue}
    (hn : isNullish (jsGet record k) = true)
    (hopt : fieldOptional f = true)
    (hdv : fieldDefaultValue sp f = some (.ok w)) :
    entryOut sp k f record p = ([(k, w)], []) := by
  simp only [entryOut, parseEntry_default hn hopt hdv]

theorem parseEntry_data_nil_of_absent {sp : String → Option ℤ} {k : String} {f : Field}
    {record : List (String × JsValue)} {p : List String}
    (hn : isNullish (jsGet record k) = true)
    (hdv : fieldDefaultValue sp f = none) :
    ∃ issr, parseEntry sp k f record p = .ok ([], issr) := by
  simp only [parseEntry, hn, hdv, if_true]
  repeat' split
  all_goals exact ⟨_, rfl⟩

theorem entryOut_data_nil_of_absent {sp : String → Option ℤ} {k : String} {f : Field}
    {record : List (String × JsValue)} {p : List String}
    (hn : isNullish (jsGet record k) = true)
    (hdv : fieldDefaultValue sp f = none) :
    (entryOut sp k f record p).1 = [] := by
  obtain ⟨issr, he⟩ := parseEntry_data_nil_of_absent (p := p) hn hdv
  simp [entryOut, he]

theorem parseEntry_present {sp : String → Option ℤ} {k : String} {f : Field}
    {record : List (String × JsValue)} {p : List String} {w : JsValue}
    (hn : isNullish (jsGet record k) = false)
    (hf : parseField sp f (jsGet record k) (appendPath p k) = .ok (.ok w)) :
    parseEntry sp k f record p = .ok ([(k, w)], []) := by
  simp only [parseEntry, hn, Bool.false_eq_true, if_false, hf, exceptOkBind]

theorem entryOut_present {sp : String → Option ℤ} {k : String} {f : Field}
    {record : List (String × JsValue)} {p : List String} {w : JsValue}
    (hn : isNullish (jsGet record k) = false)
    (hf : parseField sp f (jsGet record k) (appendPath p k) = .ok (.ok w)) :
    entryOut sp k f record p = ([(k, w)], []) := by
  simp only [entryOut, parseEntry_present hn hf]

theorem parseEntry_keys {sp : String → Option ℤ} {k : String} {f : Field}
    {record : List (String × JsValue)} {p : List String}
    {out : List (String × JsValue) × List ParseIssue}
    (he : parseEntry sp k f record p = .ok out) : ∀ b ∈ out.1, b.1 = k := by
  by_cases hn : isNullish (jsGet record k)
  · simp only [parseEntry, hn, if_true] at he
    repeat' (split at he)
    all_goals
      first
      | (injection he with h2; rw [← h2]; intro b hb; simp at hb; simp [hb])
      | (injection he with h2; rw [← h2]; intro b hb; simp at hb)
      | cases he
  · simp only [parseEntry, hn, Bool.false_eq_true, if_false] at he
    rcases hf : parseField sp f (jsGet record k) (appendPath p k) with e | fr
    · rw [hf] at he; cases he
    · rw [hf] at he
      simp only [exceptOkBind] at he
      cases fr with
      | ok w =>
        injection he with h2
        rw [← h2]
        intro b hb
        simp at hb
        simp [hb]
      | fail iss2 =>
        injection he with h2
        rw [← h2]
        intro b hb
        simp at hb

theorem entryOut_keys {sp : String → Option ℤ} {k : String} {f : Field}
    {record : List (String × JsValue)} {p : List String} :
    ∀ b ∈ (entryOut sp k f record p).1, b.1 = k := by
  intro b hb
  rcases he : parseEntry sp k f record p with e | out
  · simp [entryOut, he] at hb
  · simp only [entryOut, he] at hb
    exact parseEntry_keys he b hb

theorem loopOut_issues_nil {sp : String → Option ℤ} {d : Defn}
    {record : List (String × JsValue)} {p : List String}
    (hok : ∀ kf ∈ d, (entryOut sp kf.1 kf.2 record p).2 = ([] : List ParseIssue)) :
    (loopOut sp d record p).2 = [] := by
  induction d with
  | nil => rfl
  | cons kf rest ih =>
    obtain ⟨k, f⟩ := kf
    simp only [loopOut]
    rw [hok (k, f) (by simp), ih (fun kf h => hok kf (List.mem_cons_of_mem _ h))]
    rfl

theorem loopOut_data_mem {sp : String → Option ℤ} {d : Defn}
    {record : List (String × JsValue)} {p : List String} {k : String} {f : Field}
    (hmem : (k, f) ∈ d) :
    ∀ b ∈ (entryOut sp k f record p).1, b ∈ (loopOut sp d record p).1 := by
  induction d with
  | nil => cases hmem
  | cons kf rest ih =>
    intro b hb
    simp only [loopOut]
    rw [List.mem_append]
    rcases List.mem_cons.mp hmem with heq | hm
    · obtain ⟨k1, f1⟩ := kf
      cases heq
      exact Or.inl hb
    · exact Or.inr (ih hm b hb)

theorem loopOut_keys {sp : String → Option ℤ} {d : Defn}
    {record : List (String × JsValue)} {p : List String} :
    ∀ b ∈ (loopOut sp d record p).1, ∃ f, (b.1, f) ∈ d := by
  induction d with
  | nil => intro b hb; cases hb
  | cons kf rest ih =>
    intro b hb
    obtain ⟨k1, f1⟩ := kf
    simp only [loopOut] at hb
    rw [List.mem_append] at hb
    rcases hb with hb | hb
    · exact ⟨f1, by rw [entryOut_keys b hb]; simp⟩
    · obtain ⟨f, hf⟩ := ih b hb
      exact ⟨f, List.mem_cons_of_mem _ hf⟩

theorem loopOut_not_mem {sp : String → Option ℤ} {d : Defn}
    {record : List (String × JsValue)} {p : List String} {k : String} {f : Field}
    (hnd : (d.map Prod.fst).Nodup)
    (hmem : (k, f) ∈ d)
    (hnil : (entryOut sp k f record p).1 = []) :
    k ∉ (loopOut sp d record p).1.map Prod.fst := by
  induction d with
  | nil => cases hmem
  | cons kf rest ih =>
    obtain ⟨k1, f1⟩ := kf
    simp only [List.map_cons] at hnd
    intro hk
    simp only [loopOut, List.map_append, List.mem_append] at hk
    rcases List.mem_cons.mp hmem with heq | hm
    · cases heq
      rcases hk with hk | hk
      · rw [hnil] at hk
        simp at hk
      · obtain ⟨b, hb, hbk⟩ := List.mem_map.mp hk
        obtain ⟨f', hf'⟩ := loopOut_keys b hb
        rw [hbk] at hf'
        exact (List.nodup_cons.mp hnd).1 (List.mem_map_of_mem Prod.fst hf')
    · have hkrest : k ∈ rest.map Prod.fst := List.mem_map_of_mem Prod.fst hm
      have hne : k ≠ k1 := fun he => (List.nodup_cons.mp hnd).1 (he ▸ hkrest)
      rcases hk with hk | hk
      · obtain ⟨b, hb, hbk⟩ := List.mem_map.mp hk
        have hb1 : b.1 = k1 := entryOut_keys b hb
        exact hne (by rw [← hbk, hb1])
      · exact ih (List.nodup_cons.mp hnd).2 hm hk

end LlmSchema

namespace LlmSchema

/-- C2 (amended): on an object input where every field entry validates
cleanly (and the root is strict-clean when strict), `safeParse` succeeds and
the returned data is assembled per field, in declaration order: present
valid fields bind to their parsed value; absent optional scalar fields with
a configured default bind to the produced default; but absent array- and
object-kind fields are NEVER bound — even when a default is configured —
because their constructors pass `defaultValue: undefined`; and every bound
key comes from the definition. -/
theorem C2_success_shape
    (jp : String → Option JsValue) (jmsg : String → String) (sp : String → Option ℤ)
    (d : Defn) (opts : SchemaOpts) (record : List (String × JsValue))
    (hg : goodDefaultsD sp d = true)
    (hnd : (d.map Prod.fst).Nodup)
    (hok : ∀ kf ∈ d, (entryOut sp kf.1 kf.2 record []).2 = ([] : List ParseIssue))
    (hstrict : opts.strict = true → strictIssues record d [] = []) :
    ∃ data, safeParse jp jmsg sp d opts (.val (.obj record)) = .ok (.ok data) ∧
      (∀ k f w, (k, f) ∈ d → isNullish (jsGet record k) = false →
        parseField sp f (jsGet record k) (appendPath [] k) = .ok (.ok w) →
        (k, w) ∈ data) ∧
      (∀ k f w, (k, f) ∈ d → isNullish (jsGet record k) = true →
        fieldOptional f = true → fieldDefaultValue sp f = some (.ok w) →
        (k, w) ∈ data) ∧
      (∀ k o item, (k, Field.array o item) ∈ d → isNullish (jsGet record k) = true →
        k ∉ data.map Prod.fst) ∧
      (∀ k o shape, (k, Field.object o shape) ∈ d → isNullish (jsGet record k) = true →
        k ∉ data.map Prod.fst) ∧
      (∀ b ∈ data, ∃ f, (b.1, f) ∈ d) := by
  have hsp : safeParse jp jmsg sp d opts (.val (.obj record)) =
      parseDefn sp d (.obj record) [] opts.strict := rfl
  have hln : (loopOut sp d record []).2 = [] := loopOut_issues_nil hok
  have hsn : (if opts.strict then strictIssues record d [] else []) = [] := by
    cases hs : opts.strict
    · simp
    · simpa using hstrict hs
  refine ⟨(loopOut sp d record []).1, ?_, ?_, ?_, ?_, ?_, ?_⟩
  · rw [hsp, parseDefn_obj_eq hg, hln, hsn]
    simp
  · intro k f w hmem hn hf
    exact loopOut_data_mem hmem (k, w) (by rw [entryOut_present hn hf]; simp)
  · intro k f w hmem hn hopt hdv
    exact loopOut_data_mem hmem (k, w) (by rw [entryOut_default hn hopt hdv]; simp)
  · intro k o item hmem hn
    exact loopOut_not_mem hnd hmem (entryOut_data_nil_of_absent hn rfl)
  · intro k o shape hmem hn
    exact loopOut_not_mem hnd hmem (entryOut_data_nil_of_absent hn rfl)
  · exact loopOut_keys

theorem C2_success_shape_witness :
    (goodDefaultsD (fun _ => none) [("a", Field.text {})] = true) ∧
    (([("a", Field.text {})].map (Prod.fst (α := String) (β := Field))).Nodup) ∧
    (∀ kf ∈ [("a", Field.text {})],
      (entryOut (fun _ => none) kf.1 kf.2 [("a", JsValue.str "hi")] []).2 =
        ([] : List ParseIssue)) ∧
    (∃ data, safeParse (fun _ => none) (fun _ => "") (fun _ => none)
        [("a", Field.text {})] {} (.val (.obj [("a", JsValue.str "hi")])) = .ok (.ok data) ∧
      (∀ k f w, (k, f) ∈ [("a", Field.text {})] →
        isNullish (jsGet [("a", JsValue.str "hi")] k) = false →
        parseField (fun _ => none) f (jsGet [("a", JsValue.str "hi")] k)
          (appendPath [] k) = .ok (.ok w) →
        (k, w) ∈ data) ∧
      (∀ k f w, (k, f) ∈ [("a", Field.text {})] →
        isNullish (jsGet [("a", JsValue.str "hi")] k) = true →
        fieldOptional f = true → fieldDefaultValue (fun _ => none) f = some (.ok w) →
        (k, w) ∈ data) ∧
      (∀ k o item, (k, Field.array o item) ∈ [("a", Field.text {})] →
        isNullish (jsGet [("a", JsValue.str "hi")] k) = true →
        k ∉ data.map Prod.fst) ∧
      (∀ k o shape, (k, Field.object o shape) ∈ [("a", Field.text {})] →
        isNullish (jsGet [("a", JsValue.str "hi")] k) = true →
        k ∉ data.map Prod.fst) ∧
      (∀ b ∈ data, ∃ f, (b.1, f) ∈ [("a", Field.text {})])) :=
  have h1 : goodDefaultsD (fun _ => none) [("a", Field.text {})] = true := by
    simp only [goodDefaultsD, goodDefaultsF]
    rfl
  have h2 : ([("a", Field.text {})].map (Prod.fst (α := String) (β := Field))).Nodup := by
    simp
  have h3 : ∀ kf ∈ [("a", Field.text {})],
      (entryOut (fun _ => none) kf.1 kf.2 [("a", JsValue.str "hi")] []).2 =
        ([] : List ParseIssue) := by
    intro kf hkf
    simp only [List.mem_singleton] at hkf
    subst hkf
    simp only [entryOut, parseEntry, parseField, textParse, jsGet, isNullish]
    rfl
  ⟨h1, h2, h3, C2_success_shape (fun _ => none) (fun _ => "") (fun _ => none)
    [("a", Field.text {})] {} [("a", JsValue.str "hi")] h1 h2 h3 (fun hfalse => by cases hfalse)⟩

/-- C2 counterexample: an absent optional array field WITH a configured
default (`default: []`) is not assigned — `safeParse` succeeds but the
result contains no binding for the field, because `array(...)` forwards
`defaultValue: undefined` to the descriptor despite reporting
`hasDefault: true`.  Under the claim the result data should be
`[("xs", .arr [])]`. -/
theorem C2_array_default_counterexample :
    safeParse (fun _ => none) (fun _ => "") (fun _ => none)
      [("xs", Field.array { dflt := some (.arr []) } [])] {} (.val (.obj []))
      = .ok (.ok []) ∧
    fieldHasDefault (Field.array { dflt := some (.arr []) } []) = true ∧
    fieldOptional (Field.array { dflt := some (.arr []) } []) = true := by
  refine ⟨?_, rfl, rfl⟩
  simp [safeParse, normalizeInput, parseRoot, parseDefn, parseFieldsLoop, parseEntry,
    fieldOptional, resolveOptional, fieldHasDefault, fieldDefaultValue,
    jsGet, isNullish, ensureObject, typeOf]
  rfl

end LlmSchema
